import Mathlib

/-!
# Verification of the sqload SQL-statement extraction library

This file gives a shallow embedding of the core of the sqload Go library
(file sqload.go) and proves properties of it.  Strings are modelled as
`List Char`; Go maps are modelled as association lists whose insert
operation matches Go map assignment (replace the existing entry in
place, otherwise append).

The embedded functions follow the Go source:

* `splitMarker`  models Go regexp Split with the pattern
  consisting of a run of regex whitespace followed by the literal
  marker token.  For this pattern a match of the
  regular expression is the leftmost occurrence of the literal together
  with the maximal whitespace run immediately preceding it, so the split
  can be computed by a direct scan.
* `goTrimSpace`  models strings.TrimSpace.
* `splitNewline` models Go regexp Split with the pattern of an optional
  carriage return followed by a newline.
* `queryCommentMatch` models MatchString of the query comment pattern
  (unanchored: a match may start anywhere in the line).
* `validQueryName` models MatchString of the anchored name pattern.
* `extractSql`, `extractQueryMap` model the two extraction functions.
* `loadQueriesIntoStruct` models the reflective binder on a list of
  field descriptors.
-/

set_option maxHeartbeats 1000000

namespace Sqload

/-- Strings are lists of characters. -/
abbrev Str := List Char

/-- The whitespace class of the Go regular expressions in the source:
space, tab, newline, carriage return, form feed, vertical tab. -/
def reSpace (c : Char) : Bool :=
  c = ' ' || c = '\t' || c = '\n' || c = '\r' || c = '\x0c' || c = '\x0b'

/-- Go unicode.IsSpace, used by strings.TrimSpace.  Latin-1 part plus the
Unicode White_Space code points. -/
def goIsSpace (c : Char) : Bool :=
  reSpace c || c = '\u0085' || c = '\u00a0' || c = '\u1680' ||
  ('\u2000' ≤ c && c ≤ '\u200a') || c = '\u2028' || c = '\u2029' ||
  c = '\u202f' || c = '\u205f' || c = '\u3000'

/-- The literal marker token of queryNamePattern. -/
def markerL : Str := "-- query:".toList

/-- Whether a whitespace run starting here reaches an occurrence of the
marker literal. -/
def wsThenMarker (s : Str) : Bool :=
  markerL.isPrefixOf (s.dropWhile reSpace)

/-- The scan of splitMarker, with explicit fuel so that the definition is
structurally recursive (the fuel is always at least the length of the
string, so the fallback is never reached). -/
def splitMarkerF : Nat → Str → List Str
  | _, [] => [[]]
  | 0, s => [s]
  | fuel + 1, c :: rest =>
    if markerL.isPrefixOf (c :: rest) then
      [] :: splitMarkerF fuel (List.drop 8 rest)
    else if reSpace c && wsThenMarker rest then
      splitMarkerF fuel rest
    else
      match splitMarkerF fuel rest with
      | [] => [[c]]
      | p :: ps => (c :: p) :: ps

/-- queryNamePattern.Split(s, -1): split on every match of the pattern of
regex whitespace followed by the marker literal.  Each match consumes the
leftmost remaining occurrence of the literal together with the maximal
whitespace run immediately before it. -/
def splitMarker (s : Str) : List Str :=
  splitMarkerF s.length s

/-- Drop the longest suffix all of whose characters satisfy p. -/
def rstrip (p : Char → Bool) : Str → Str
  | [] => []
  | c :: rest =>
    match rstrip p rest with
    | [] => if p c then [] else [c]
    | r :: rs => c :: r :: rs

/-- strings.TrimSpace. -/
def goTrimSpace (s : Str) : Str :=
  rstrip goIsSpace (s.dropWhile goIsSpace)

/-- newLinePattern.Split(s, -1): split on every newline, consuming a
carriage return that immediately precedes the newline. -/
def splitNewline : Str → List Str
  | [] => [[]]
  | '\r' :: '\n' :: rest => [] :: splitNewline rest
  | '\n' :: rest => [] :: splitNewline rest
  | c :: rest =>
    match splitNewline rest with
    | [] => [[c]]
    | l :: ls => (c :: l) :: ls

/-- A character allowed by validQueryNamePattern. -/
def validQueryNameChar (c : Char) : Bool :=
  ('a' ≤ c && c ≤ 'z') || ('A' ≤ c && c ≤ 'Z') || ('0' ≤ c && c ≤ '9') || c = '_'

/-- validQueryNamePattern.MatchString: the anchored pattern of one or more
name characters. -/
def validQueryName (s : Str) : Bool :=
  !s.isEmpty && s.all validQueryNameChar

/-- Whether queryCommentPattern matches starting at this position: the
literal two dashes, then a regex-whitespace run, then a run free of
newlines extending to the end of the string. -/
def matchesCommentAt : Str → Bool
  | c₁ :: c₂ :: t => c₁ = '-' && c₂ = '-' && (t.dropWhile reSpace).all (fun c => c ≠ '\n')
  | _ => false

/-- queryCommentPattern.MatchString(line): the pattern is unanchored, so
it matches when it matches at some position.  The optional leading
whitespace of the pattern never affects whether a match exists. -/
def queryCommentMatch : Str → Bool
  | [] => false
  | c :: rest => matchesCommentAt (c :: rest) || queryCommentMatch rest

/-- extractSql: keep the lines at which the comment pattern does not
match, rejoined with a newline. -/
def extractSql (lines : List Str) : Str :=
  List.intercalate ['\n'] (lines.filter fun l => !queryCommentMatch l)

/-- Association-list model of a Go map.  Insertion replaces the entry of
an existing key in place and appends a fresh key at the end, matching Go
map assignment (up to the unobservable iteration order). -/
def mapInsert {β : Type} : List (Str × β) → Str → β → List (Str × β)
  | [], k, v => [(k, v)]
  | (k₁, v₁) :: rest, k, v =>
    if k = k₁ then (k₁, v) :: rest else (k₁, v₁) :: mapInsert rest k v

/-- Lookup in the association-list map. -/
def mapLookup {β : Type} : List (Str × β) → Str → Option β
  | [], _ => none
  | (k₁, v₁) :: rest, k => if k = k₁ then some v₁ else mapLookup rest k

/-- The keys of the association-list map. -/
def mapKeys {β : Type} (m : List (Str × β)) : List Str :=
  m.map Prod.fst

/-- The map from query names to SQL bodies. -/
abbrev QMap := List (Str × Str)

/-- The errors of the library (each is wrapped around
ErrCannotLoadQueries in Go; only the distinguishing payload is kept). -/
inductive LoadError : Type
  | invalidQueryName (name : Str)
  | queryNotFound (name : Str)
  | fieldNotAssignable (fieldName : Str)
deriving DecidableEq, Repr

/-- Decidable equality of results, used to evaluate the extraction on
concrete inputs. -/
instance instDecEqExcept {ε α : Type} [DecidableEq ε] [DecidableEq α] :
    DecidableEq (Except ε α)
  | .error e, .error f =>
      if h : e = f then .isTrue (by rw [h])
      else .isFalse (by intro hx; cases hx; exact h rfl)
  | .error _, .ok _ => .isFalse (by intro hx; cases hx)
  | .ok _, .error _ => .isFalse (by intro hx; cases hx)
  | .ok a, .ok b =>
      if h : a = b then .isTrue (by rw [h])
      else .isFalse (by intro hx; cases hx; exact h rfl)

/-- The lines of one raw piece: newLinePattern.Split(strings.TrimSpace(q), -1). -/
def pieceLines (q : Str) : List Str :=
  splitNewline (goTrimSpace q)

/-- lines[0] of a piece (the split always returns at least one line). -/
def pieceName (q : Str) : Str :=
  (pieceLines q).headD []

/-- extractSql(lines[1:]) of a piece. -/
def pieceBody (q : Str) : Str :=
  extractSql (pieceLines q).tail

/-- The loop of ExtractQueryMap over rawQueries[1:]. -/
def extractLoop : QMap → List Str → Except LoadError QMap
  | m, [] => .ok m
  | m, q :: rest =>
    let lines := pieceLines q
    let queryName := lines.headD []
    if validQueryName queryName then
      extractLoop (mapInsert m queryName (extractSql lines.tail)) rest
    else
      .error (.invalidQueryName queryName)

/-- ExtractQueryMap. -/
def extractQueryMap (sql : Str) : Except LoadError QMap :=
  let rawQueries := splitMarker sql
  if rawQueries.length ≤ 1 then .ok [] else
  extractLoop [] rawQueries.tail

/-- Whether a string contains two adjacent dashes. -/
def hasDashDash : Str → Bool
  | [] => false
  | c :: rest => (c = '-' && rest.head? = some '-') || hasDashDash rest

/-- Follows the words of the spec: a line is a comment line when, after
stripping leading whitespace, it begins with the two-character marker.
Used only to compare the spec with the behaviour of the source. -/
def specCommentLine (l : Str) : Bool :=
  ['-', '-'].isPrefixOf (l.dropWhile reSpace)

/-- The pairs (name, body) derived from the pieces that ExtractQueryMap
iterates over (everything after the first piece). -/
def segPairs (s : Str) : List (Str × Str) :=
  (splitMarker s).tail.map (fun q => (pieceName q, pieceBody q))

/-- The names declared by the pieces of a text, in order. -/
def segNames (s : Str) : List Str :=
  (splitMarker s).tail.map pieceName

/-- One reflected struct field: its Go name, its query tag (empty when the
field carries no tag, as Tag.Get returns the empty string then), whether
it is settable, whether its kind is string, and its current value. -/
structure GoField where
  name : Str
  tag : Str
  canSet : Bool
  isString : Bool
  value : Str
deriving DecidableEq, Repr

/-- The first loop of loadQueriesIntoStruct: build queriesAndFields, the
map from a non-empty query tag to the index of the (last) field declaring
it. -/
def collectTags (fields : List GoField) : List (Str × Nat) :=
  fields.enum.foldl
    (fun acc p => if p.2.tag ≠ [] then mapInsert acc p.2.tag p.1 else acc) []

/-- field.SetString(sql) on the field at the given index. -/
def setFieldValue : List GoField → Nat → Str → List GoField
  | [], _, _ => []
  | f :: fs, 0, v => { f with value := v } :: fs
  | f :: fs, n + 1, v => f :: setFieldValue fs n v

/-- The second loop of loadQueriesIntoStruct: for each collected
(tag, index) pair, look the tag up in the query map and assign the body
into the field, failing when the query is missing or the field cannot
take it.  Go iterates the map in an unspecified order; this model
iterates in insertion order (on the success path the result does not
depend on the order, since distinct tags address distinct fields). -/
def bindLoop (queries : QMap) : List GoField → List (Str × Nat) → Except LoadError (List GoField)
  | fields, [] => .ok fields
  | fields, (tag, i) :: rest =>
    match mapLookup queries tag with
    | none => .error (.queryNotFound tag)
    | some sql =>
      match fields.get? i with
      | none => .error (.fieldNotAssignable [])
      | some f =>
        if f.canSet && f.isString then
          bindLoop queries (setFieldValue fields i sql) rest
        else
          .error (.fieldNotAssignable f.name)

/-- loadQueriesIntoStruct on an already reflected struct value (the
pointer and nil checks of the Go function live outside this shallow
model, which starts from the dereferenced struct). -/
def loadQueriesIntoStruct (queries : QMap) (fields : List GoField) : Except LoadError (List GoField) :=
  bindLoop queries fields (collectTags fields)

/-- cat: the file texts are concatenated joined by a newline (the file
reading itself is the excluded I/O layer). -/
def goCat (texts : List Str) : Str :=
  List.intercalate ['\n'] texts

/-- Merging one map into another: every entry of the second map is
inserted into the first, in order (last writer wins). -/
def mapUnion {β : Type} (m₁ m₂ : List (Str × β)) : List (Str × β) :=
  m₂.foldl (fun acc kv => mapInsert acc kv.1 kv.2) m₁

/-- Replace every carriage-return/newline pair by a newline (the CRLF to
LF conversion of a text). -/
def crlfToLf : Str → Str
  | [] => []
  | '\r' :: '\n' :: rest => '\n' :: crlfToLf rest
  | c :: rest => c :: crlfToLf rest

/-- Whether every carriage return of the text is immediately followed by
a newline, so that the text only uses CRLF (or LF) line endings. -/
def crlfOnly : Str → Bool
  | [] => true
  | '\r' :: rest => rest.head? = some '\n' && crlfOnly rest
  | _ :: rest => crlfOnly rest

/-! ## Basic facts about the splitting functions -/

theorem splitNewline_nil : splitNewline [] = [[]] := rfl

theorem splitNewline_cons_lf (rest : Str) :
    splitNewline ('\n' :: rest) = [] :: splitNewline rest := by
  rw [splitNewline]

theorem splitNewline_cons_crlf (rest : Str) :
    splitNewline ('\r' :: '\n' :: rest) = [] :: splitNewline rest := by
  rw [splitNewline]

theorem splitNewline_cons_other (c : Char) (rest : Str)
    (h1 : ∀ r, c = '\r' → rest = '\n' :: r → False) (h2 : c = '\n' → False) :
    splitNewline (c :: rest) =
      match splitNewline rest with
      | [] => [[c]]
      | l :: ls => (c :: l) :: ls := by
  rw [splitNewline]
  · exact h1
  · exact h2

theorem splitNewline_ne_nil (s : Str) : splitNewline s ≠ [] := by
  induction s using splitNewline.induct with
  | case1 => simp [splitNewline_nil]
  | case2 rest ih => simp [splitNewline_cons_crlf]
  | case3 rest ih => simp [splitNewline_cons_lf]
  | case4 c rest h1 h2 heq ih =>
    rw [splitNewline_cons_other c rest h1 h2, heq]
    simp
  | case5 c rest h1 h2 p ps heq ih =>
    rw [splitNewline_cons_other c rest h1 h2, heq]
    simp

theorem mem_splitNewline_no_newline (s : Str) :
    ∀ l ∈ splitNewline s, '\n' ∉ l := by
  induction s using splitNewline.induct with
  | case1 => simp [splitNewline_nil]
  | case2 rest ih => simpa [splitNewline_cons_crlf] using ih
  | case3 rest ih => simpa [splitNewline_cons_lf] using ih
  | case4 c rest h1 h2 heq ih =>
    rw [splitNewline_cons_other c rest h1 h2, heq]
    intro l hl
    rcases List.mem_singleton.mp hl with rfl
    simp only [List.mem_singleton]
    intro hc
    exact h2 hc.symm
  | case5 c rest h1 h2 p ps heq ih =>
    rw [splitNewline_cons_other c rest h1 h2, heq]
    intro x hx
    rcases List.mem_cons.mp hx with rfl | hx
    · have hl : '\n' ∉ p := ih p (by rw [heq]; exact List.mem_cons_self _ _)
      intro hcon
      rcases List.mem_cons.mp hcon with hceq | h
      · exact h2 hceq.symm
      · exact hl h
    · exact ih x (by rw [heq]; exact List.mem_cons_of_mem _ hx)

/-- The fuel of splitMarkerF is irrelevant once it is at least the length
of the string. -/
theorem splitMarkerF_congr :
    ∀ (f g : Nat) (s : Str), s.length ≤ f → s.length ≤ g →
      splitMarkerF f s = splitMarkerF g s := by
  intro f
  induction f with
  | zero =>
    intro g s hf hg
    cases s with
    | nil => cases g <;> rfl
    | cons c rest => simp at hf
  | succ f ih =>
    intro g s hf hg
    cases s with
    | nil => cases g <;> rfl
    | cons c rest =>
      cases g with
      | zero => simp at hg
      | succ g =>
        simp only [List.length_cons, Nat.succ_le_succ_iff] at hf hg
        rw [splitMarkerF, splitMarkerF]
        have hdrop : (List.drop 8 rest).length ≤ f :=
          le_trans (by simpa using List.length_drop_le 8 rest) hf
        have hdropg : (List.drop 8 rest).length ≤ g :=
          le_trans (by simpa using List.length_drop_le 8 rest) hg
        rw [ih g (List.drop 8 rest) hdrop hdropg, ih g rest hf hg]

theorem splitMarker_nil : splitMarker [] = [[]] := rfl

/-- The one-step unfolding of splitMarker. -/
theorem splitMarker_cons (c : Char) (rest : Str) :
    splitMarker (c :: rest) =
      if markerL.isPrefixOf (c :: rest) then
        [] :: splitMarker (List.drop 8 rest)
      else if reSpace c && wsThenMarker rest then
        splitMarker rest
      else
        match splitMarker rest with
        | [] => [[c]]
        | p :: ps => (c :: p) :: ps := by
  show splitMarkerF (rest.length + 1) (c :: rest) = _
  rw [splitMarkerF]
  rw [splitMarkerF_congr rest.length (List.drop 8 rest).length (List.drop 8 rest)
        (by simpa using List.length_drop_le 8 rest) le_rfl]
  rfl

/-- The induction principle following the scan of splitMarker. -/
theorem splitMarker_rec (motive : Str → Prop)
    (h0 : motive [])
    (hm : ∀ c rest, markerL.isPrefixOf (c :: rest) = true →
        motive (List.drop 8 rest) → motive (c :: rest))
    (hw : ∀ c rest, markerL.isPrefixOf (c :: rest) = false →
        (reSpace c && wsThenMarker rest) = true → motive rest → motive (c :: rest))
    (ho : ∀ c rest, markerL.isPrefixOf (c :: rest) = false →
        (reSpace c && wsThenMarker rest) = false → motive rest → motive (c :: rest)) :
    ∀ s, motive s := by
  have key : ∀ (n : Nat) (s : Str), s.length ≤ n → motive s := by
    intro n
    induction n with
    | zero =>
      intro s hs
      cases s with
      | nil => exact h0
      | cons c rest => simp at hs
    | succ n ih =>
      intro s hs
      cases s with
      | nil => exact h0
      | cons c rest =>
        simp only [List.length_cons, Nat.succ_le_succ_iff] at hs
        rcases hb : markerL.isPrefixOf (c :: rest) with _ | _
        · rcases hw2 : (reSpace c && wsThenMarker rest) with _ | _
          · exact ho c rest hb hw2 (ih rest hs)
          · exact hw c rest hb hw2 (ih rest hs)
        · exact hm c rest hb
            (ih (List.drop 8 rest) (le_trans (by simpa using List.length_drop_le 8 rest) hs))
  exact fun s => key s.length s le_rfl

theorem splitMarker_ne_nil (s : Str) : splitMarker s ≠ [] := by
  induction s using splitMarker_rec with
  | h0 => simp [splitMarker_nil]
  | hm c rest hb ih => rw [splitMarker_cons, if_pos hb]; simp
  | hw c rest hb hw2 ih => rw [splitMarker_cons, if_neg (by simp [hb]), if_pos hw2]; exact ih
  | ho c rest hb hw2 ih =>
    rw [splitMarker_cons, if_neg (by simp [hb]), if_neg (by simp [hw2])]
    split <;> simp

theorem queryCommentMatch_eq_hasDashDash (l : Str) (h : '\n' ∉ l) :
    queryCommentMatch l = hasDashDash l := by
  induction l with
  | nil => rfl
  | cons c rest ih =>
    have hrest : '\n' ∉ rest := fun hx => h (List.mem_cons_of_mem _ hx)
    rw [queryCommentMatch, hasDashDash, ih hrest]
    congr 1
    cases rest with
    | nil => simp [matchesCommentAt]
    | cons c₂ t =>
      simp only [matchesCommentAt, List.head?_cons, Option.some.injEq]
      have hall : (t.dropWhile reSpace).all (fun c => c ≠ '\n') = true := by
        rw [List.all_eq_true]
        intro x hx
        have hxt : x ∈ t := (List.dropWhile_sublist _).subset hx
        have : x ≠ '\n' := by
          intro hx'
          exact h (by subst hx'; exact List.mem_cons_of_mem _ (List.mem_cons_of_mem _ hxt))
        simpa using this
      rw [hall]
      simp [Bool.and_true]

/-! ## Texts without the marker token -/

theorem infix_of_wsThenMarker {s : Str} (h : wsThenMarker s = true) :
    markerL <:+: s := by
  unfold wsThenMarker at h
  have hp : markerL <+: s.dropWhile reSpace := List.isPrefixOf_iff_prefix.mp h
  exact hp.isInfix.trans (List.dropWhile_suffix reSpace).isInfix

theorem infix_of_isPrefixOf {s : Str} (h : markerL.isPrefixOf s = true) :
    markerL <:+: s :=
  (List.isPrefixOf_iff_prefix.mp h).isInfix

theorem infix_cons_extend {c : Char} {rest : Str} (h : markerL <:+: rest) :
    markerL <:+: (c :: rest) :=
  h.trans (List.suffix_cons c rest).isInfix

/-- A text with no occurrence of the marker literal splits into a single
piece. -/
theorem splitMarker_no_marker (s : Str) (h : ¬ markerL <:+: s) :
    splitMarker s = [s] := by
  induction s using splitMarker_rec with
  | h0 => exact splitMarker_nil
  | hm c rest hb ih => exact absurd (infix_of_isPrefixOf hb) h
  | hw c rest hb hw2 ih =>
    have : wsThenMarker rest = true := by
      have := hw2
      simp only [Bool.and_eq_true] at this
      exact this.2
    exact absurd (infix_cons_extend (infix_of_wsThenMarker this)) h
  | ho c rest hb hw2 ih =>
    have hrest : ¬ markerL <:+: rest := fun hx => h (infix_cons_extend hx)
    rw [splitMarker_cons, if_neg (by simp [hb]), if_neg (by simp [hw2]), ih hrest]

/-- C8: segmenting a text that contains no occurrence of the marker token
(the empty string in particular) returns an empty mapping and no error,
whatever the text contains. -/
theorem extractQueryMap_no_marker (s : Str) (h : ¬ markerL <:+: s) :
    extractQueryMap s = .ok [] := by
  rw [extractQueryMap, splitMarker_no_marker s h]
  rfl

/-- C8 witness: evaluation on the empty string and on a marker-free text
(one that even contains two dashes and the word query). -/
theorem extractQueryMap_no_marker_witness :
    (¬ markerL <:+: ([] : Str)) ∧ extractQueryMap [] = .ok [] ∧
    (¬ markerL <:+: ("SELECT 1; -- query".toList)) ∧
    extractQueryMap ("SELECT 1; -- query".toList) = .ok [] :=
  ⟨by decide, extractQueryMap_no_marker [] (by decide), by decide,
    extractQueryMap_no_marker _ (by decide)⟩

/-! ## Claim C1: which lines does comment stripping remove -/

/-- C1 counterexample: the line consisting of a statement followed by a
trailing comment does not begin with two dashes after leading-whitespace
stripping, yet extractSql removes it (the compiled comment pattern is
unanchored, so it matches anywhere in the line), so the line is not kept
verbatim as the claim requires. -/
theorem extractSql_removes_inline_dashdash :
    extractSql [("SELECT 1; -- one".toList)] = [] ∧
    specCommentLine ("SELECT 1; -- one".toList) = false := by
  constructor
  · rfl
  · rfl

/-- C1 amended: for newline-free lines (the only lines the source ever
passes, since they come from newline splitting) a line is removed by
extractSql exactly when it contains two adjacent dashes anywhere; all
other lines are kept verbatim and rejoined with a newline. -/
theorem extractSql_filters_dashdash_lines (lines : List Str)
    (h : ∀ l ∈ lines, '\n' ∉ l) :
    extractSql lines =
      List.intercalate ['\n'] (lines.filter fun l => !hasDashDash l) := by
  unfold extractSql
  congr 1
  apply List.filter_congr
  intro l hl
  rw [queryCommentMatch_eq_hasDashDash l (h l hl)]

/-- C1 witness: evaluation of the amended statement on concrete lines,
one of which contains an inline comment. -/
theorem extractSql_filters_dashdash_lines_witness :
    (∀ l ∈ [("SELECT a,".toList), ("  b -- pk".toList), ([] : Str), ("FROM t;".toList)], '\n' ∉ l) ∧
    extractSql [("SELECT a,".toList), ("  b -- pk".toList), ([] : Str), ("FROM t;".toList)] =
      List.intercalate ['\n']
        (([("SELECT a,".toList), ("  b -- pk".toList), ([] : Str), ("FROM t;".toList)]).filter
          fun l => !hasDashDash l) :=
  ⟨by decide, extractSql_filters_dashdash_lines _ (by decide)⟩

/-! ## Character class facts for valid names -/

theorem validQueryNameChar_not_ws (c : Char) (h : validQueryNameChar c = true) :
    reSpace c = false ∧ goIsSpace c = false := by
  have hne : ∀ w : Char, validQueryNameChar w = false → ¬(c = w) := by
    intro w hw hc
    rw [hc, hw] at h
    cases h
  have hle : c.val.toNat ≤ 122 := by
    simp only [validQueryNameChar, Bool.or_eq_true, Bool.and_eq_true, decide_eq_true_eq] at h
    rcases h with ((⟨_, h2⟩ | ⟨_, h2⟩) | ⟨_, h2⟩) | h2
    · exact le_trans (show c.val.toNat ≤ ('z' : Char).val.toNat by exact_mod_cast h2) (by decide)
    · exact le_trans (show c.val.toNat ≤ ('Z' : Char).val.toNat by exact_mod_cast h2) (by decide)
    · exact le_trans (show c.val.toNat ≤ ('9' : Char).val.toNat by exact_mod_cast h2) (by decide)
    · subst h2; decide
  have hnr : ¬ ('\u2000' ≤ c) := by
    intro hx
    have h1 : ('\u2000' : Char).val.toNat ≤ c.val.toNat := by exact_mod_cast hx
    have h2 : ('\u2000' : Char).val.toNat = 8192 := by decide
    omega
  constructor
  · simp [reSpace, hne ' ' (by decide), hne '\t' (by decide), hne '\n' (by decide),
      hne '\r' (by decide), hne '\x0c' (by decide), hne '\x0b' (by decide)]
  · simp [goIsSpace, reSpace, hnr, hne ' ' (by decide), hne '\t' (by decide),
      hne '\n' (by decide), hne '\r' (by decide), hne '\x0c' (by decide),
      hne '\x0b' (by decide), hne '\u0085' (by decide), hne '\u00a0' (by decide),
      hne '\u1680' (by decide), hne '\u2028' (by decide), hne '\u2029' (by decide),
      hne '\u202f' (by decide), hne '\u205f' (by decide), hne '\u3000' (by decide)]

theorem validQueryName_facts {name : Str} (h : validQueryName name = true) :
    name ≠ [] ∧ ∀ c ∈ name, goIsSpace c = false ∧ c ≠ '\n' ∧ c ≠ '\r' := by
  simp only [validQueryName, Bool.and_eq_true] at h
  obtain ⟨h1, h2⟩ := h
  constructor
  · intro hx
    subst hx
    simp at h1
  · intro c hc
    have hv : validQueryNameChar c = true := by
      rw [List.all_eq_true] at h2
      exact h2 c hc
    obtain ⟨hr, hg⟩ := validQueryNameChar_not_ws c hv
    refine ⟨hg, ?_, ?_⟩
    · rintro rfl
      simp [reSpace] at hr
    · rintro rfl
      simp [reSpace] at hr

/-! ## Claim C3: the scenario of a marker with a blank name position -/

/-- C3 counterexample: on the input of scenario C the segmentation does
not fail with the empty name. -/
theorem extractQueryMap_scenarioC_not_empty_name :
    extractQueryMap ("-- query: \nSELECT 1;".toList) ≠
      .error (.invalidQueryName []) := by decide

/-- C3 amended: on the input of scenario C the piece-level whitespace
trimming removes the blank name position together with its newline, so
the following line becomes the declared name and segmentation fails with
an invalid-name error naming "SELECT 1;". -/
theorem extractQueryMap_scenarioC :
    extractQueryMap ("-- query: \nSELECT 1;".toList) =
      .error (.invalidQueryName ("SELECT 1;".toList)) := by decide

/-- The first of two options that is set. -/
def optOr {β : Type} : Option β → Option β → Option β
  | some v, _ => some v
  | none, y => y

/-- Replace the last piece of a split by its version with trailing regex
whitespace removed (the effect on the final piece of extending the text). -/
def modLast (ps : List Str) : List Str :=
  ps.dropLast ++ [rstrip reSpace (ps.getLastD [])]

/-! ## Step lemmas for the extraction loop -/

theorem extractLoop_nil (m : QMap) : extractLoop m [] = .ok m := rfl

theorem extractLoop_cons (m : QMap) (q : Str) (rest : List Str) :
    extractLoop m (q :: rest) =
      if validQueryName (pieceName q) then
        extractLoop (mapInsert m (pieceName q) (pieceBody q)) rest
      else
        .error (.invalidQueryName (pieceName q)) := rfl

/-! ## Structure of trimming and line splitting -/

theorem rstrip_all {p : Char → Bool} {w : Str} (h : ∀ c ∈ w, p c = true) :
    rstrip p w = [] := by
  induction w with
  | nil => rfl
  | cons c t ih =>
    rw [rstrip, ih (fun x hx => h x (List.mem_cons_of_mem _ hx))]
    simp [h c (List.mem_cons_self _ _)]

theorem rstrip_append_all {p : Char → Bool} (x : Str) {w : Str}
    (h : ∀ c ∈ w, p c = true) :
    rstrip p (x ++ w) = rstrip p x := by
  induction x with
  | nil => simpa using rstrip_all h
  | cons c t ih =>
    rw [List.cons_append, rstrip, ih, rstrip]

theorem rstrip_fixed_append {p : Char → Bool} (x : Str) {r : Str}
    (hfix : rstrip p r = r) (hne : r ≠ []) :
    rstrip p (x ++ r) = x ++ r := by
  induction x with
  | nil => simpa using hfix
  | cons c t ih =>
    rw [List.cons_append, rstrip, ih]
    cases htr : (t ++ r) with
    | nil => exact absurd (List.append_eq_nil.mp htr).2 hne
    | cons a b => rfl

theorem splitNewline_append_line {u : Str} (v : Str)
    (hu : ∀ c ∈ u, c ≠ '\n' ∧ c ≠ '\r') :
    splitNewline (u ++ '\n' :: v) = u :: splitNewline v := by
  induction u with
  | nil => simp [splitNewline_cons_lf]
  | cons c t ih =>
    have hc := hu c (List.mem_cons_self _ _)
    rw [List.cons_append,
        splitNewline_cons_other c (t ++ '\n' :: v)
          (fun r hr _ => absurd hr hc.2) (fun h => absurd h hc.1),
        ih (fun x hx => hu x (List.mem_cons_of_mem _ hx))]

theorem splitNewline_replicate_lf (k : Nat) (v : Str) :
    splitNewline (List.replicate k '\n' ++ v) =
      List.replicate k [] ++ splitNewline v := by
  induction k with
  | zero => simp
  | succ k ih => simp [List.replicate_succ, splitNewline_cons_lf, ih]

theorem splitMarker_marker_append (t : Str) :
    splitMarker (markerL ++ t) = [] :: splitMarker t := by
  have hpre : markerL.isPrefixOf ('-' :: ("- query:".toList ++ t)) = true :=
    List.isPrefixOf_iff_prefix.mpr (List.prefix_append _ _)
  rw [show markerL ++ t = '-' :: ("- query:".toList ++ t) from rfl]
  rw [splitMarker_cons, if_pos hpre,
    List.drop_left' (show ("- query:".toList).length = 8 from rfl)]

/-! ## Claim C2: blank lines at the edges of a segment body -/

/-- C2 counterexample: the trailing blank lines of a segment body are not
preserved: the emitted body for this input is just the statement line,
while the source body with only comment lines deleted still ends with the
blank lines. -/
theorem extractQueryMap_drops_trailing_blank_lines :
    extractQueryMap ("-- query: a\nSELECT 1;\n\n\n".toList) =
      .ok [("a".toList, "SELECT 1;".toList)] ∧
    extractSql (splitNewline ("SELECT 1;\n\n\n".toList)) ≠ "SELECT 1;".toList := by
  constructor
  · decide
  · decide

/-- C2 amended: in a single well-formed segment whose body is k blank
lines followed by content that neither starts nor ends in further
trimmable whitespace, the k leading blank lines survive into the emitted
body exactly (as k empty lines in front of the comment-stripped content
lines), while the trailing whitespace (including trailing blank lines)
after the content is removed by the piece-level trim. -/
theorem extractQueryMap_single_segment (name rest trail : Str) (k : Nat)
    (hname : validQueryName name = true)
    (hfix : rstrip goIsSpace rest = rest)
    (hne : rest ≠ [])
    (htrail : ∀ c ∈ trail, goIsSpace c = true)
    (hnomark : ¬ markerL <:+:
      (' ' :: (name ++ '\n' :: (List.replicate k '\n' ++ (rest ++ trail))))) :
    extractQueryMap
        (markerL ++ ' ' :: (name ++ '\n' :: (List.replicate k '\n' ++ (rest ++ trail)))) =
      .ok [(name, extractSql (List.replicate k [] ++ splitNewline rest))] := by
  obtain ⟨hnn, hchars⟩ := validQueryName_facts hname
  rw [extractQueryMap, splitMarker_marker_append, splitMarker_no_marker _ hnomark]
  have hlines : pieceLines
      (' ' :: (name ++ '\n' :: (List.replicate k '\n' ++ (rest ++ trail)))) =
      name :: (List.replicate k [] ++ splitNewline rest) := by
    unfold pieceLines goTrimSpace
    have hdw : (' ' :: (name ++ '\n' :: (List.replicate k '\n' ++ (rest ++ trail)))).dropWhile goIsSpace
        = name ++ '\n' :: (List.replicate k '\n' ++ (rest ++ trail)) := by
      cases hnm : name with
      | nil => exact absurd hnm hnn
      | cons c0 n' =>
        have hc0 : goIsSpace c0 = false :=
          (hchars c0 (by rw [hnm]; exact List.mem_cons_self _ _)).1
        rw [List.dropWhile_cons, if_pos (by decide), List.cons_append,
            List.dropWhile_cons, if_neg (by simp [hc0])]
    rw [hdw]
    have e : name ++ '\n' :: (List.replicate k '\n' ++ (rest ++ trail)) =
        ((name ++ '\n' :: List.replicate k '\n') ++ rest) ++ trail := by
      simp [List.append_assoc]
    rw [e, rstrip_append_all _ htrail, rstrip_fixed_append _ hfix hne]
    have e2 : (name ++ '\n' :: List.replicate k '\n') ++ rest =
        name ++ '\n' :: (List.replicate k '\n' ++ rest) := by
      simp [List.append_assoc]
    rw [e2, splitNewline_append_line _ (fun c hc => ⟨(hchars c hc).2.1, (hchars c hc).2.2⟩),
        splitNewline_replicate_lf]
  show extractLoop [] _ = _
  simp only [List.tail_cons]
  rw [extractLoop_cons]
  unfold pieceName pieceBody
  rw [hlines]
  simp only [List.headD_cons, List.tail_cons, hname, if_true]
  rfl

/-- C2 witness: evaluation of the amended statement with two leading
blank lines, a one-line body and a trailing blank line. -/
theorem extractQueryMap_single_segment_witness :
    (validQueryName ("a".toList) = true ∧
     rstrip goIsSpace ("SELECT 1;".toList) = "SELECT 1;".toList ∧
     ("SELECT 1;".toList ≠ ([] : Str)) ∧
     (∀ c ∈ ("\n".toList), goIsSpace c = true) ∧
     ¬ markerL <:+:
       (' ' :: ("a".toList ++ '\n' :: (List.replicate 2 '\n' ++ ("SELECT 1;".toList ++ "\n".toList))))) ∧
    extractQueryMap
        (markerL ++ ' ' :: ("a".toList ++ '\n' :: (List.replicate 2 '\n' ++ ("SELECT 1;".toList ++ "\n".toList)))) =
      .ok [("a".toList, extractSql (List.replicate 2 [] ++ splitNewline ("SELECT 1;".toList)))] :=
  ⟨⟨by decide, by decide, by decide, by decide, by decide⟩,
    extractQueryMap_single_segment _ _ _ 2 (by decide) (by decide) (by decide) (by decide) (by decide)⟩

/-! ## Claim C9: idempotence of comment stripping -/

theorem splitNewline_no_newline {l : Str} (h : '\n' ∉ l) :
    splitNewline l = [l] := by
  induction l with
  | nil => exact splitNewline_nil
  | cons c rest ih =>
    have hc : c ≠ '\n' := fun hx => h (by rw [hx]; exact List.mem_cons_self _ _)
    have hrest : '\n' ∉ rest := fun hx => h (List.mem_cons_of_mem _ hx)
    rw [splitNewline_cons_other c rest
        (fun r _ hr => hrest (by rw [hr]; exact List.mem_cons_self _ _))
        (fun hx => hc hx),
      ih hrest]

theorem splitNewline_append_line' {u : Str} (v : Str)
    (h1 : '\n' ∉ u) (h2 : u.getLast? ≠ some '\r') :
    splitNewline (u ++ '\n' :: v) = u :: splitNewline v := by
  induction u with
  | nil => simp [splitNewline_cons_lf]
  | cons c u' ih =>
    have hc : c ≠ '\n' := fun hx => h1 (by rw [hx]; exact List.mem_cons_self _ _)
    have h1' : '\n' ∉ u' := fun hx => h1 (List.mem_cons_of_mem _ hx)
    cases u' with
    | nil =>
      have hcr : c ≠ '\r' := by
        simp only [List.getLast?_singleton, ne_eq, Option.some.injEq] at h2
        exact h2
      rw [List.cons_append, List.nil_append,
        splitNewline_cons_other c ('\n' :: v)
          (fun r hcc _ => hcr hcc) (fun hx => hc hx)]
      rw [splitNewline_cons_lf]
    | cons d u'' =>
      have hd : d ≠ '\n' := fun hx => h1' (by rw [hx]; exact List.mem_cons_self _ _)
      have h2' : (d :: u'').getLast? ≠ some '\r' := by
        rwa [List.getLast?_cons_cons] at h2
      rw [List.cons_append,
        splitNewline_cons_other c ((d :: u'') ++ '\n' :: v)
          (fun r _ hr => by
            rw [List.cons_append] at hr
            injection hr with hh ht
            exact hd hh)
          (fun hx => hc hx)]
      rw [ih h1' h2']

theorem hasDashDash_of_sub {l : Str} (h : ['-', '-'] <:+: l) :
    hasDashDash l = true := by
  induction l with
  | nil =>
    rcases h with ⟨s, t, hst⟩
    simp at hst
  | cons c rest ih =>
    rcases (List.infix_cons_iff.mp h) with hp | hi
    · rcases hp with ⟨t, ht⟩
      injection ht with h1 h2
      subst h1
      rw [hasDashDash]
      cases rest with
      | nil => simp at h2
      | cons d rest' =>
        injection h2 with h3 _
        subst h3
        simp
    · rw [hasDashDash, ih hi]
      simp

theorem specCommentLine_false_of_no_dashdash {l : Str} (h : hasDashDash l = false) :
    specCommentLine l = false := by
  cases hs : specCommentLine l with
  | false => rfl
  | true =>
    exfalso
    have hinf : ['-', '-'] <:+: l :=
      ((List.isPrefixOf_iff_prefix.mp hs).isInfix).trans
        (List.dropWhile_suffix reSpace).isInfix
    rw [hasDashDash_of_sub hinf] at h
    cases h

/-- C9 counterexample: a body produced by stripping the lines of the text
consisting of a statement line that ends in a lone carriage return is not
a fixed point of stripping: joining with a newline creates a
carriage-return/newline pair, which the next newline split consumes. -/
theorem extractSql_restrip_counterexample :
    extractSql (splitNewline (extractSql (splitNewline ("X\r\r\nY".toList)))) ≠
      extractSql (splitNewline ("X\r\r\nY".toList)) := by decide

/-- C9 amended: for newline-free lines none of which ends in a carriage
return, stripping is idempotent: splitting the stripped body back into
lines and stripping again yields the same body; moreover no line of the
stripped body is a comment line (it does not even contain two dashes, in
particular it does not begin with them after leading whitespace). -/
theorem intercalate_lf_nil : List.intercalate ['\n'] ([] : List Str) = [] := rfl

theorem intercalate_lf_singleton (l : Str) : List.intercalate ['\n'] [l] = l := by
  simp [List.intercalate]

theorem intercalate_lf_cons₂ (l₁ l₂ : Str) (ls : List Str) :
    List.intercalate ['\n'] (l₁ :: l₂ :: ls) =
      l₁ ++ '\n' :: List.intercalate ['\n'] (l₂ :: ls) := by
  simp [List.intercalate, List.intersperse]

theorem splitNewline_intercalate (ls : List Str)
    (h1 : ∀ l ∈ ls, '\n' ∉ l) (h2 : ∀ l ∈ ls, l.getLast? ≠ some '\r') :
    splitNewline (List.intercalate ['\n'] ls) = if ls = [] then [[]] else ls := by
  induction ls with
  | nil => simp [intercalate_lf_nil, splitNewline_nil]
  | cons l ks ih =>
    cases ks with
    | nil =>
      rw [intercalate_lf_singleton,
        splitNewline_no_newline (h1 l (List.mem_cons_self _ _))]
      simp
    | cons l2 ks' =>
      rw [intercalate_lf_cons₂,
        splitNewline_append_line' _
          (h1 l (List.mem_cons_self _ _))
          (h2 l (List.mem_cons_self _ _)),
        ih (fun x hx => h1 x (List.mem_cons_of_mem _ hx))
          (fun x hx => h2 x (List.mem_cons_of_mem _ hx))]
      simp

theorem extractSql_restrip (lines : List Str)
    (h1 : ∀ l ∈ lines, '\n' ∉ l)
    (h2 : ∀ l ∈ lines, l.getLast? ≠ some '\r') :
    extractSql (splitNewline (extractSql lines)) = extractSql lines ∧
    ∀ l ∈ splitNewline (extractSql lines), specCommentLine l = false := by
  have hkeep : ∀ l ∈ lines.filter (fun l => !queryCommentMatch l),
      queryCommentMatch l = false := by
    intro l hl
    have := List.of_mem_filter hl
    simpa using this
  have hsplit : splitNewline (extractSql lines) =
      if (lines.filter fun l => !queryCommentMatch l) = [] then [[]]
      else lines.filter fun l => !queryCommentMatch l := by
    unfold extractSql
    exact splitNewline_intercalate _
      (fun l hl => h1 l (List.mem_of_mem_filter hl))
      (fun l hl => h2 l (List.mem_of_mem_filter hl))
  constructor
  · rw [hsplit]
    split
    · next hemp =>
      unfold extractSql
      rw [hemp]
      rfl
    · next hemp =>
      unfold extractSql
      rw [List.filter_eq_self.mpr (by
        intro a ha
        simp [hkeep a ha])]
  · rw [hsplit]
    split
    · intro l hl
      rcases List.mem_singleton.mp hl with rfl
      rfl
    · intro l hl
      apply specCommentLine_false_of_no_dashdash
      have hq := hkeep l hl
      rw [← queryCommentMatch_eq_hasDashDash l (h1 l (List.mem_of_mem_filter hl))]
      exact hq

/-- C9 witness: evaluation of the amended statement on concrete lines
including a comment line and a blank line. -/
theorem extractSql_restrip_witness :
    (∀ l ∈ [("-- c".toList), ("SELECT 1,".toList), ([] : Str), ("2;".toList)], '\n' ∉ l) ∧
    (∀ l ∈ [("-- c".toList), ("SELECT 1,".toList), ([] : Str), ("2;".toList)],
      l.getLast? ≠ some '\r') ∧
    (extractSql (splitNewline (extractSql
        [("-- c".toList), ("SELECT 1,".toList), ([] : Str), ("2;".toList)])) =
      extractSql [("-- c".toList), ("SELECT 1,".toList), ([] : Str), ("2;".toList)] ∧
    ∀ l ∈ splitNewline (extractSql
        [("-- c".toList), ("SELECT 1,".toList), ([] : Str), ("2;".toList)]),
      specCommentLine l = false) :=
  ⟨by decide, by decide,
    extractSql_restrip _ (by decide) (by decide)⟩

/-! ## The association-list map under insertion and union -/

theorem mapLookup_mapInsert {β : Type} (m : List (Str × β)) (k : Str) (v : β) (x : Str) :
    mapLookup (mapInsert m k v) x = if x = k then some v else mapLookup m x := by
  induction m with
  | nil =>
    rw [mapInsert]
    rfl
  | cons kv rest ih =>
    obtain ⟨k₁, v₁⟩ := kv
    rw [mapInsert]
    by_cases hk : k = k₁
    · subst hk
      rw [if_pos rfl, mapLookup, mapLookup]
      by_cases hx : x = k <;> simp [hx]
    · rw [if_neg hk, mapLookup, mapLookup, ih]
      by_cases hx : x = k₁
      · subst hx
        rw [if_pos rfl, if_pos rfl, if_neg (fun hh => hk hh.symm)]
      · rw [if_neg hx, if_neg hx]

theorem mapKeys_mapInsert {β : Type} (m : List (Str × β)) (k : Str) (v : β) :
    mapKeys (mapInsert m k v) =
      if k ∈ mapKeys m then mapKeys m else mapKeys m ++ [k] := by
  induction m with
  | nil =>
    rw [mapInsert]
    simp only [mapKeys, List.map_nil, List.map_cons]
    rw [if_neg (List.not_mem_nil k)]
    rfl
  | cons kv rest ih =>
    obtain ⟨k₁, v₁⟩ := kv
    rw [mapInsert]
    by_cases hk : k = k₁
    · subst hk
      rw [if_pos rfl]
      simp only [mapKeys, List.map_cons]
      rw [if_pos (List.mem_cons_self _ _)]
    · rw [if_neg hk]
      simp only [mapKeys, List.map_cons] at ih ⊢
      rw [ih]
      have hiff : (k ∈ k₁ :: List.map Prod.fst rest) ↔ (k ∈ List.map Prod.fst rest) := by
        constructor
        · intro hx
          rcases List.mem_cons.mp hx with h | h
          · exact absurd h hk
          · exact h
        · exact fun h => List.mem_cons_of_mem _ h
      by_cases hmem : k ∈ List.map Prod.fst rest
      · rw [if_pos hmem, if_pos (hiff.mpr hmem)]
      · rw [if_neg hmem, if_neg (fun hx => hmem (hiff.mp hx))]
        simp

theorem mapKeys_nodup_mapInsert {β : Type} (m : List (Str × β)) (k : Str) (v : β)
    (h : (mapKeys m).Nodup) : (mapKeys (mapInsert m k v)).Nodup := by
  rw [mapKeys_mapInsert]
  by_cases hmem : k ∈ mapKeys m
  · rw [if_pos hmem]; exact h
  · rw [if_neg hmem, List.nodup_append]
    refine ⟨h, List.nodup_singleton k, ?_⟩
    intro x hx hxk
    rw [List.mem_singleton] at hxk
    subst hxk
    exact hmem hx

theorem mapUnion_cons {β : Type} (m : List (Str × β)) (k : Str) (v : β) (l : List (Str × β)) :
    mapUnion m ((k, v) :: l) = mapUnion (mapInsert m k v) l := rfl

theorem mapLookup_nil {β : Type} (x : Str) : mapLookup ([] : List (Str × β)) x = none := rfl

theorem mapLookup_cons {β : Type} (k₁ : Str) (v₁ : β) (rest : List (Str × β)) (x : Str) :
    mapLookup ((k₁, v₁) :: rest) x = if x = k₁ then some v₁ else mapLookup rest x := rfl

theorem optOr_assoc {β : Type} (a b c : Option β) :
    optOr (optOr a b) c = optOr a (optOr b c) := by
  cases a <;> rfl

theorem mapLookup_append {β : Type} (a b : List (Str × β)) (x : Str) :
    mapLookup (a ++ b) x = optOr (mapLookup a x) (mapLookup b x) := by
  induction a with
  | nil => rfl
  | cons kv rest ih =>
    obtain ⟨k₁, v₁⟩ := kv
    rw [List.cons_append, mapLookup_cons, mapLookup_cons]
    by_cases hx : x = k₁
    · rw [if_pos hx, if_pos hx]
      rfl
    · rw [if_neg hx, if_neg hx, ih]

theorem mapLookup_mapUnion {β : Type} (m l : List (Str × β)) (x : Str) :
    mapLookup (mapUnion m l) x = optOr (mapLookup l.reverse x) (mapLookup m x) := by
  induction l generalizing m with
  | nil => rfl
  | cons kv rest ih =>
    obtain ⟨k, v⟩ := kv
    rw [mapUnion_cons, ih, List.reverse_cons, mapLookup_append, mapLookup_mapInsert,
      optOr_assoc]
    congr 1
    rw [show mapLookup [(k, v)] x = if x = k then some v else none from rfl]
    by_cases hx : x = k
    · rw [if_pos hx, if_pos hx]
      rfl
    · rw [if_neg hx, if_neg hx]
      rfl

theorem mem_mapKeys_mapUnion {β : Type} (m l : List (Str × β)) (x : Str) :
    x ∈ mapKeys (mapUnion m l) ↔ x ∈ mapKeys m ∨ x ∈ l.map Prod.fst := by
  induction l generalizing m with
  | nil =>
    constructor
    · intro h
      exact Or.inl h
    · rintro (h | h)
      · exact h
      · exact absurd h (List.not_mem_nil x)
  | cons kv rest ih =>
    obtain ⟨k, v⟩ := kv
    rw [mapUnion_cons, ih, mapKeys_mapInsert]
    by_cases hmem : k ∈ mapKeys m
    · rw [if_pos hmem]
      simp only [List.map_cons, List.mem_cons]
      constructor
      · rintro (h | h)
        · exact Or.inl h
        · exact Or.inr (Or.inr h)
      · rintro (h | rfl | h)
        · exact Or.inl h
        · exact Or.inl hmem
        · exact Or.inr h
    · rw [if_neg hmem]
      simp only [mapKeys, List.map_append, List.map_cons, List.map_nil,
        List.mem_append, List.mem_cons, List.mem_singleton]
      tauto

theorem mapKeys_nodup_mapUnion {β : Type} (m l : List (Str × β))
    (h : (mapKeys m).Nodup) : (mapKeys (mapUnion m l)).Nodup := by
  induction l generalizing m with
  | nil => exact h
  | cons kv rest ih =>
    obtain ⟨k, v⟩ := kv
    rw [mapUnion_cons]
    exact ih _ (mapKeys_nodup_mapInsert m k v h)

/-! ## The extraction loop on valid pieces -/

theorem extractLoop_all_valid (ps : List Str) (m : QMap)
    (h : ∀ q ∈ ps, validQueryName (pieceName q) = true) :
    extractLoop m ps =
      .ok (mapUnion m (ps.map fun q => (pieceName q, pieceBody q))) := by
  induction ps generalizing m with
  | nil => rfl
  | cons q rest ih =>
    rw [extractLoop_cons, if_pos (h q (List.mem_cons_self _ _)), List.map_cons,
      mapUnion_cons]
    exact ih _ (fun x hx => h x (List.mem_cons_of_mem _ hx))

theorem extractLoop_first_invalid (m : QMap) (pre : List Str) (q : Str) (post : List Str)
    (hpre : ∀ p ∈ pre, validQueryName (pieceName p) = true)
    (hq : validQueryName (pieceName q) = false) :
    extractLoop m (pre ++ q :: post) = .error (.invalidQueryName (pieceName q)) := by
  induction pre generalizing m with
  | nil =>
    rw [List.nil_append, extractLoop_cons, if_neg (by rw [hq]; exact Bool.false_ne_true)]
  | cons p pre' ih =>
    rw [List.cons_append, extractLoop_cons, if_pos (hpre p (List.mem_cons_self _ _))]
    exact ih _ (fun x hx => hpre x (List.mem_cons_of_mem _ hx))

/-! ## Claim C5: an invalid declared name aborts the whole call -/

/-- C5: when the pieces contain an invalid declared name (the pieces
before it all being valid), the whole call returns an error naming that
offending string; no mapping is returned and the pieces after it do not
influence the result. -/
theorem extractQueryMap_invalid_name (sql : Str) (pre : List Str) (q : Str) (post : List Str)
    (hsplit : (splitMarker sql).tail = pre ++ q :: post)
    (hpre : ∀ p ∈ pre, validQueryName (pieceName p) = true)
    (hq : validQueryName (pieceName q) = false) :
    extractQueryMap sql = .error (.invalidQueryName (pieceName q)) := by
  rw [extractQueryMap]
  cases hsm : splitMarker sql with
  | nil => exact absurd hsm (splitMarker_ne_nil sql)
  | cons a t =>
    have ht : t = pre ++ q :: post := by
      rw [hsm] at hsplit
      exact hsplit
    have hlen : ¬ (a :: t).length ≤ 1 := by
      rw [ht]
      simp
    rw [if_neg hlen, List.tail_cons, ht]
    exact extractLoop_first_invalid [] pre q post hpre hq

/-- C5 witness: a text whose second declared name contains a space. -/
theorem extractQueryMap_invalid_name_witness :
    ((splitMarker ("-- query: a\nX\n-- query: b d\nY".toList)).tail =
      [(" a\nX".toList)] ++ (" b d\nY".toList) :: [] ∧
     (∀ p ∈ [(" a\nX".toList)], validQueryName (pieceName p) = true) ∧
     validQueryName (pieceName (" b d\nY".toList)) = false) ∧
    extractQueryMap ("-- query: a\nX\n-- query: b d\nY".toList) =
      .error (.invalidQueryName (pieceName (" b d\nY".toList))) :=
  ⟨⟨by decide, by decide, by decide⟩,
    extractQueryMap_invalid_name ("-- query: a\nX\n-- query: b d\nY".toList)
      [(" a\nX".toList)] (" b d\nY".toList) [] (by decide) (by decide) (by decide)⟩

/-! ## Claim C4: entry count and last occurrence wins -/

theorem optOr_none_right {β : Type} (x : Option β) : optOr x none = x := by
  cases x <;> rfl

/-- C4: when every declared name of the pieces is valid, segmentation
succeeds; the mapping has exactly as many entries as there are distinct
names (the number of segments minus the duplicates), and each name maps
to the body of its last occurrence (the first match in the reversed
name/body pair list). -/
theorem extractQueryMap_all_valid (sql : Str)
    (h : ∀ n ∈ segNames sql, validQueryName n = true) :
    ∃ m : QMap, extractQueryMap sql = .ok m ∧
      m.length = (segNames sql).dedup.length ∧
      ∀ n ∈ segNames sql, mapLookup m n = mapLookup (segPairs sql).reverse n := by
  rw [extractQueryMap]
  cases hsm : splitMarker sql with
  | nil => exact absurd hsm (splitMarker_ne_nil sql)
  | cons a t =>
    have hnames : segNames sql = t.map pieceName := by
      rw [segNames, hsm, List.tail_cons]
    have hpairs : segPairs sql = t.map (fun q => (pieceName q, pieceBody q)) := by
      rw [segPairs, hsm, List.tail_cons]
    by_cases hlen : (a :: t).length ≤ 1
    · have ht : t = [] := by
        rcases t with _ | ⟨b, t'⟩
        · rfl
        · simp at hlen
      refine ⟨[], by rw [if_pos hlen], ?_, ?_⟩
      · rw [hnames, ht]
        rfl
      · rw [hnames, ht]
        intro n hn
        exact absurd hn (List.not_mem_nil n)
    · rw [if_neg hlen, List.tail_cons]
      have hval : ∀ q ∈ t, validQueryName (pieceName q) = true := by
        intro q hq
        apply h
        rw [hnames]
        exact List.mem_map_of_mem _ hq
      rw [extractLoop_all_valid t [] hval]
      refine ⟨_, rfl, ?_, ?_⟩
      · have hnd : (mapKeys (mapUnion [] (t.map fun q => (pieceName q, pieceBody q)))).Nodup :=
          mapKeys_nodup_mapUnion [] _ List.nodup_nil
        have hmem : ∀ x, x ∈ mapKeys (mapUnion [] (t.map fun q => (pieceName q, pieceBody q))) ↔
            x ∈ segNames sql := by
          intro x
          rw [mem_mapKeys_mapUnion, hnames]
          constructor
          · rintro (hx | hx)
            · exact absurd hx (List.not_mem_nil x)
            · rw [List.map_map] at hx
              exact hx
          · intro hx
            right
            rw [List.map_map]
            exact hx
        have hfin : (mapKeys (mapUnion [] (t.map fun q => (pieceName q, pieceBody q)))).toFinset =
            (segNames sql).toFinset := by
          ext x
          simp only [List.mem_toFinset]
          exact hmem x
        have hlen1 : (mapUnion [] (t.map fun q => (pieceName q, pieceBody q))).length =
            (mapKeys (mapUnion [] (t.map fun q => (pieceName q, pieceBody q)))).length := by
          rw [mapKeys, List.length_map]
        rw [hlen1]
        calc (mapKeys (mapUnion [] (t.map fun q => (pieceName q, pieceBody q)))).length
            = (mapKeys (mapUnion [] (t.map fun q => (pieceName q, pieceBody q)))).dedup.length := by
              rw [hnd.dedup]
          _ = (mapKeys (mapUnion [] (t.map fun q => (pieceName q, pieceBody q)))).toFinset.card :=
              (List.card_toFinset _).symm
          _ = (segNames sql).toFinset.card := by rw [hfin]
          _ = (segNames sql).dedup.length := List.card_toFinset _
      · intro n hn
        rw [mapLookup_mapUnion, hpairs, mapLookup_nil, optOr_none_right]

/-- C4 witness: evaluation on a text with three segments, two of which
declare the same name; the mapping has two entries and the repeated name
holds the last body. -/
theorem extractQueryMap_all_valid_witness :
    (∀ n ∈ segNames ("-- query: a\nX\n-- query: b\nY\n-- query: a\nZ".toList),
      validQueryName n = true) ∧
    (∃ m : QMap,
      extractQueryMap ("-- query: a\nX\n-- query: b\nY\n-- query: a\nZ".toList) = .ok m ∧
      m.length =
        (segNames ("-- query: a\nX\n-- query: b\nY\n-- query: a\nZ".toList)).dedup.length ∧
      ∀ n ∈ segNames ("-- query: a\nX\n-- query: b\nY\n-- query: a\nZ".toList),
        mapLookup m n =
          mapLookup (segPairs ("-- query: a\nX\n-- query: b\nY\n-- query: a\nZ".toList)).reverse n) :=
  ⟨by decide, extractQueryMap_all_valid _ (by decide)⟩

/-! ## The binder: setting fields through collected tags -/

theorem mapInsert_fresh {β : Type} (m : List (Str × β)) (k : Str) (v : β)
    (h : k ∉ mapKeys m) : mapInsert m k v = m ++ [(k, v)] := by
  induction m with
  | nil => rfl
  | cons kv rest ih =>
    obtain ⟨k₁, v₁⟩ := kv
    rw [mapInsert,
      if_neg (fun hk => h (by rw [hk]; exact List.mem_cons_self _ _)),
      List.cons_append, ih (fun hk => h (List.mem_cons_of_mem _ hk))]

theorem setFieldValue_get?_same (fs : List GoField) (i : Nat) (v : Str) (f : GoField)
    (h : fs.get? i = some f) :
    (setFieldValue fs i v).get? i = some { f with value := v } := by
  induction fs generalizing i with
  | nil => cases i <;> cases h
  | cons g gs ih =>
    cases i with
    | zero =>
      injection h with hg
      subst hg
      rfl
    | succ n => exact ih n h

theorem setFieldValue_get?_other (fs : List GoField) (i j : Nat) (v : Str)
    (h : j ≠ i) : (setFieldValue fs i v).get? j = fs.get? j := by
  induction fs generalizing i j with
  | nil => cases i <;> rfl
  | cons g gs ih =>
    cases i with
    | zero =>
      cases j with
      | zero => exact absurd rfl h
      | succ m => rfl
    | succ n =>
      cases j with
      | zero => rfl
      | succ m => exact ih n m (fun he => h (by rw [he]))

theorem collectTags_foldl (l : List (Nat × GoField)) (acc : List (Str × Nat))
    (hnd : ((l.filter (fun p => p.2.tag ≠ [])).map (fun p => p.2.tag)).Nodup)
    (hacc : ∀ p ∈ l, p.2.tag ≠ [] → p.2.tag ∉ mapKeys acc) :
    l.foldl (fun acc p => if p.2.tag ≠ [] then mapInsert acc p.2.tag p.1 else acc) acc =
      acc ++ (l.filter (fun p => p.2.tag ≠ [])).map (fun p => (p.2.tag, p.1)) := by
  induction l generalizing acc with
  | nil => simp
  | cons p l' ih =>
    by_cases hp : p.2.tag = []
    · rw [List.foldl_cons, if_neg (by simp [hp]),
        List.filter_cons_of_neg (by simp [hp])]
      rw [List.filter_cons_of_neg (by simp [hp])] at hnd
      exact ih acc hnd (fun q hq hqt => hacc q (List.mem_cons_of_mem _ hq) hqt)
    · rw [List.filter_cons_of_pos (by simp [hp]), List.map_cons] at hnd
      rw [List.foldl_cons, if_pos hp,
        mapInsert_fresh _ _ _ (hacc p (List.mem_cons_self _ _) hp),
        List.filter_cons_of_pos (by simp [hp]), List.map_cons]
      rw [ih (acc ++ [(p.2.tag, p.1)]) hnd.of_cons ?hacc2]
      · rw [List.append_assoc]
        rfl
      case hacc2 =>
        intro q hq hqt
        rw [mapKeys, List.map_append, List.mem_append]
        rintro (hin | hin)
        · exact hacc q (List.mem_cons_of_mem _ hq) hqt hin
        · have hq1 : q.2.tag ∈ (l'.filter (fun r => r.2.tag ≠ [])).map (fun r => r.2.tag) :=
            List.mem_map_of_mem _ (List.mem_filter.mpr ⟨hq, by simp [hqt]⟩)
          have hq2 : q.2.tag = p.2.tag := by
            simpa [mapKeys] using hin
          rw [hq2] at hq1
          exact (List.nodup_cons.mp hnd).1 hq1

theorem map_tag_filter_enum (fields : List GoField) :
    ((fields.enum.filter (fun p => p.2.tag ≠ [])).map (fun p => p.2.tag)) =
      ((fields.filter (fun f => f.tag ≠ [])).map GoField.tag) := by
  have h1 : ∀ (l : List (Nat × GoField)),
      ((l.filter (fun p => p.2.tag ≠ [])).map (fun p => p.2.tag)) =
        ((l.map Prod.snd).filter (fun f => f.tag ≠ [])).map GoField.tag := by
    intro l
    induction l with
    | nil => rfl
    | cons p l' ih =>
      by_cases hp : p.2.tag = []
      · rw [List.filter_cons_of_neg (by simp [hp]), List.map_cons,
          List.filter_cons_of_neg (by simp [hp]), ih]
      · rw [List.filter_cons_of_pos (by simp [hp]), List.map_cons, List.map_cons,
          List.filter_cons_of_pos (by simp [hp]), List.map_cons, ih]
  rw [h1, List.enum_map_snd]

theorem collectTags_eq (fields : List GoField)
    (hnd : ((fields.filter (fun f => f.tag ≠ [])).map GoField.tag).Nodup) :
    collectTags fields =
      (fields.enum.filter (fun p => p.2.tag ≠ [])).map (fun p => (p.2.tag, p.1)) := by
  unfold collectTags
  rw [collectTags_foldl fields.enum []
    (by rw [map_tag_filter_enum]; exact hnd)
    (fun p _ _ => List.not_mem_nil _)]
  rfl

theorem collectTags_indices_nodup (fields : List GoField)
    (hnd : ((fields.filter (fun f => f.tag ≠ [])).map GoField.tag).Nodup) :
    ((collectTags fields).map Prod.snd).Nodup := by
  rw [collectTags_eq fields hnd, List.map_map]
  exact ((List.filter_sublist _).map Prod.fst).nodup
    (by rw [List.enum_map_fst]; exact List.nodup_range _)

theorem mem_collectTags (fields : List GoField)
    (hnd : ((fields.filter (fun f => f.tag ≠ [])).map GoField.tag).Nodup)
    (t : Str) (i : Nat) :
    (t, i) ∈ collectTags fields ↔
      ∃ f, fields.get? i = some f ∧ f.tag = t ∧ t ≠ [] := by
  rw [collectTags_eq fields hnd]
  constructor
  · intro hmem
    obtain ⟨⟨j, f⟩, hjf, heq⟩ := List.mem_map.mp hmem
    obtain ⟨hmem2, htag2⟩ := List.mem_filter.mp hjf
    rw [Prod.mk.injEq] at heq
    obtain ⟨rfl, rfl⟩ := heq
    refine ⟨f, List.mem_enum_iff_get?.mp hmem2, rfl, by simpa using htag2⟩
  · rintro ⟨f, hget, rfl, hne⟩
    exact List.mem_map.mpr ⟨(i, f),
      List.mem_filter.mpr ⟨List.mem_enum_iff_get?.mpr hget, by simp [hne]⟩, rfl⟩

theorem bindLoop_ok (queries : QMap) (tl : List (Str × Nat)) (fs : List GoField)
    (hidx : (tl.map Prod.snd).Nodup)
    (hcons : ∀ t i, (t, i) ∈ tl → ∃ f v, fs.get? i = some f ∧ f.tag = t ∧
        f.canSet = true ∧ f.isString = true ∧ mapLookup queries t = some v) :
    ∃ fs', bindLoop queries fs tl = .ok fs' ∧
      (∀ j, (∀ t, (t, j) ∉ tl) → fs'.get? j = fs.get? j) ∧
      (∀ t j v f, (t, j) ∈ tl → mapLookup queries t = some v → fs.get? j = some f →
        fs'.get? j = some { f with value := v }) := by
  induction tl generalizing fs with
  | nil =>
    exact ⟨fs, rfl, fun j _ => rfl,
      fun t j v f h => absurd h (List.not_mem_nil _)⟩
  | cons p tl' ih =>
    obtain ⟨t, i⟩ := p
    obtain ⟨f, v, hget, htag, hcan, hstr, hlook⟩ := hcons t i (List.mem_cons_self _ _)
    have hidx' : (tl'.map Prod.snd).Nodup := by
      rw [List.map_cons] at hidx
      exact hidx.of_cons
    have hinotin : i ∉ tl'.map Prod.snd := by
      rw [List.map_cons] at hidx
      exact (List.nodup_cons.mp hidx).1
    have hstep : bindLoop queries fs ((t, i) :: tl') =
        bindLoop queries (setFieldValue fs i v) tl' := by
      simp only [bindLoop, hlook, hget, hcan, hstr]
      rfl
    rw [hstep]
    have hcons2 : ∀ t' i', (t', i') ∈ tl' →
        ∃ f' v', (setFieldValue fs i v).get? i' = some f' ∧ f'.tag = t' ∧
          f'.canSet = true ∧ f'.isString = true ∧ mapLookup queries t' = some v' := by
      intro t' i' hmem
      obtain ⟨f', v', hget', htag', hcan', hstr', hlook'⟩ :=
        hcons t' i' (List.mem_cons_of_mem _ hmem)
      have hne : i' ≠ i := fun he =>
        hinotin (he ▸ List.mem_map_of_mem Prod.snd hmem)
      exact ⟨f', v', by rw [setFieldValue_get?_other _ _ _ _ hne]; exact hget',
        htag', hcan', hstr', hlook'⟩
    obtain ⟨fs', hbind, hunch, hset⟩ := ih (setFieldValue fs i v) hidx' hcons2
    refine ⟨fs', hbind, ?_, ?_⟩
    · intro j hj
      have hji : j ≠ i := fun he => hj t (by rw [he]; exact List.mem_cons_self _ _)
      rw [hunch j (fun t' hmem => hj t' (List.mem_cons_of_mem _ hmem)),
        setFieldValue_get?_other _ _ _ _ hji]
    · intro t' j v' f' hmem hlook' hget'
      rcases List.mem_cons.mp hmem with heq | hmem'
      · rw [Prod.mk.injEq] at heq
        obtain ⟨ht', hj⟩ := heq
        rw [ht'] at hlook'
        rw [hj] at hget' ⊢
        have hv : v' = v := by
          rw [hlook] at hlook'
          injection hlook' with hvv
          exact hvv.symm
        have hf : f' = f := by
          rw [hget] at hget'
          injection hget' with hff
          exact hff.symm
        rw [hv, hf]
        rw [hunch i (fun t'' hmem'' => hinotin (List.mem_map_of_mem Prod.snd hmem''))]
        exact setFieldValue_get?_same fs i v f hget
      · have hne : j ≠ i := fun he =>
          hinotin (he ▸ List.mem_map_of_mem Prod.snd hmem')
        exact hset t' j v' f' hmem' hlook'
          (by rw [setFieldValue_get?_other _ _ _ _ hne]; exact hget')

/-! ## Claim C6: successful binding copies bodies byte for byte -/

/-- C6: when the tagged fields of the struct are settable strings whose
tags are pairwise distinct and each tag is a key of the map, binding
succeeds; afterwards each untagged field is untouched and each tagged
field holds exactly the mapped body (only its value changed). -/
theorem loadQueriesIntoStruct_ok (queries : QMap) (fields : List GoField)
    (hnd : ((fields.filter (fun f => f.tag ≠ [])).map GoField.tag).Nodup)
    (hok : ∀ f ∈ fields, f.tag ≠ [] →
        f.canSet = true ∧ f.isString = true ∧ (mapLookup queries f.tag).isSome = true) :
    ∃ fields', loadQueriesIntoStruct queries fields = .ok fields' ∧
      ∀ i f, fields.get? i = some f →
        (f.tag = [] → fields'.get? i = some f) ∧
        (f.tag ≠ [] → ∀ v, mapLookup queries f.tag = some v →
          fields'.get? i = some { f with value := v }) := by
  unfold loadQueriesIntoStruct
  have hcons : ∀ t i, (t, i) ∈ collectTags fields →
      ∃ f v, fields.get? i = some f ∧ f.tag = t ∧
        f.canSet = true ∧ f.isString = true ∧ mapLookup queries t = some v := by
    intro t i hmem
    obtain ⟨f, hget, htagf, hne⟩ := (mem_collectTags fields hnd t i).mp hmem
    obtain ⟨hcan, hstr, hsome⟩ :=
      hok f (List.get?_mem hget) (by rw [htagf]; exact hne)
    obtain ⟨v, hlook⟩ := Option.isSome_iff_exists.mp hsome
    exact ⟨f, v, hget, htagf, hcan, hstr, by rw [← htagf]; exact hlook⟩
  obtain ⟨fs', hbind, hunch, hset⟩ := bindLoop_ok queries (collectTags fields) fields
    (collectTags_indices_nodup fields hnd) hcons
  refine ⟨fs', hbind, ?_⟩
  intro i f hget
  constructor
  · intro htag0
    rw [← hget]
    apply hunch
    intro t hmem
    obtain ⟨f'', hget'', htag'', hne''⟩ := (mem_collectTags fields hnd t i).mp hmem
    rw [hget] at hget''
    injection hget'' with hff
    rw [← hff] at htag''
    exact hne'' (by rw [← htag'', htag0])
  · intro htagne v hlookv
    exact hset f.tag i v f
      ((mem_collectTags fields hnd f.tag i).mpr ⟨f, hget, rfl, htagne⟩) hlookv hget

/-- C6 witness: a map with two entries bound into a three-field struct
whose middle field is untagged. -/
theorem loadQueriesIntoStruct_ok_witness :
    ((((([⟨("F1".toList), ("a".toList), true, true, []⟩,
         ⟨("F0".toList), [], false, false, ("keep".toList)⟩,
         ⟨("F2".toList), ("b".toList), true, true, ("old".toList)⟩] : List GoField).filter
            (fun f => f.tag ≠ [])).map GoField.tag).Nodup) ∧
     (∀ f ∈ ([⟨("F1".toList), ("a".toList), true, true, []⟩,
         ⟨("F0".toList), [], false, false, ("keep".toList)⟩,
         ⟨("F2".toList), ("b".toList), true, true, ("old".toList)⟩] : List GoField),
        f.tag ≠ [] → f.canSet = true ∧ f.isString = true ∧
          (mapLookup [(("a".toList), ("X".toList)), (("b".toList), ("Y\nZ".toList))] f.tag).isSome = true)) ∧
    (∃ fields', loadQueriesIntoStruct
        [(("a".toList), ("X".toList)), (("b".toList), ("Y\nZ".toList))]
        [⟨("F1".toList), ("a".toList), true, true, []⟩,
         ⟨("F0".toList), [], false, false, ("keep".toList)⟩,
         ⟨("F2".toList), ("b".toList), true, true, ("old".toList)⟩] = .ok fields' ∧
      ∀ i f, ([⟨("F1".toList), ("a".toList), true, true, []⟩,
         ⟨("F0".toList), [], false, false, ("keep".toList)⟩,
         ⟨("F2".toList), ("b".toList), true, true, ("old".toList)⟩] : List GoField).get? i = some f →
        (f.tag = [] → fields'.get? i = some f) ∧
        (f.tag ≠ [] → ∀ v, mapLookup
            [(("a".toList), ("X".toList)), (("b".toList), ("Y\nZ".toList))] f.tag = some v →
          fields'.get? i = some { f with value := v })) :=
  ⟨⟨by decide, by decide⟩,
    loadQueriesIntoStruct_ok _ _ (by decide) (by decide)⟩

/-! ## CRLF conversion: basic equations and closure properties -/

theorem crlfToLf_nil : crlfToLf [] = [] := rfl

theorem crlfToLf_crlf (rest : Str) :
    crlfToLf ('\r' :: '\n' :: rest) = '\n' :: crlfToLf rest := rfl

theorem crlfToLf_cons_other (c : Char) (rest : Str)
    (h : ∀ r, c = '\r' → rest = '\n' :: r → False) :
    crlfToLf (c :: rest) = c :: crlfToLf rest := by
  rw [crlfToLf]
  exact h

theorem crlfOnly_nil : crlfOnly [] = true := rfl

theorem crlfOnly_cr (rest : Str) :
    crlfOnly ('\r' :: rest) = (rest.head? = some '\n' && crlfOnly rest) := rfl

theorem crlfOnly_cons_other (c : Char) (rest : Str) (h : c = '\r' → False) :
    crlfOnly (c :: rest) = crlfOnly rest := by
  rw [crlfOnly]
  exact h

theorem crlfOnly_tail {c : Char} {rest : Str} (h : crlfOnly (c :: rest) = true) :
    crlfOnly rest = true := by
  by_cases hc : c = '\r'
  · subst hc
    rw [crlfOnly_cr] at h
    simp only [Bool.and_eq_true] at h
    exact h.2
  · rwa [crlfOnly_cons_other c rest hc] at h

theorem crlfOnly_cr_head {rest : Str} (h : crlfOnly ('\r' :: rest) = true) :
    ∃ r, rest = '\n' :: r := by
  rw [crlfOnly_cr] at h
  simp only [Bool.and_eq_true, decide_eq_true_eq] at h
  cases rest with
  | nil => simp at h
  | cons d r =>
    simp only [List.head?_cons, Option.some.injEq] at h
    exact ⟨r, by rw [h.1]⟩

theorem crlfToLf_eq_nil_iff (y : Str) : crlfToLf y = [] ↔ y = [] := by
  induction y using crlfToLf.induct with
  | case1 => simp [crlfToLf_nil]
  | case2 rest ih => rw [crlfToLf_crlf]; simp
  | case3 c rest h => rw [crlfToLf_cons_other c rest h]; simp

theorem crlfToLf_append_no_cr (u z : Str) (hu : ∀ c ∈ u, c ≠ '\r') :
    crlfToLf (u ++ z) = u ++ crlfToLf z := by
  induction u with
  | nil => rfl
  | cons c u' ih =>
    rw [List.cons_append,
      crlfToLf_cons_other c (u' ++ z)
        (fun r hc _ => hu c (List.mem_cons_self _ _) hc),
      ih (fun x hx => hu x (List.mem_cons_of_mem _ hx)), List.cons_append]

theorem crlfOnly_append_right (u z : Str) (h : crlfOnly (u ++ z) = true) :
    crlfOnly z = true := by
  induction u with
  | nil => exact h
  | cons c u' ih =>
    rw [List.cons_append] at h
    exact ih (crlfOnly_tail h)

/-! ## CRLF conversion commutes with the whitespace operations -/

theorem dropWhile_crlfToLf (P : Char → Bool) (hn : P '\n' = true) (hr : P '\r' = true) :
    ∀ y : Str, crlfOnly y = true →
      (crlfToLf y).dropWhile P = crlfToLf (y.dropWhile P) ∧
      crlfOnly (y.dropWhile P) = true := by
  intro y
  induction y using crlfToLf.induct with
  | case1 => intro _; exact ⟨rfl, rfl⟩
  | case2 rest ih =>
    intro h
    have hrest : crlfOnly rest = true := crlfOnly_tail (crlfOnly_tail h)
    obtain ⟨ih1, ih2⟩ := ih hrest
    refine ⟨?_, ?_⟩
    · rw [crlfToLf_crlf, List.dropWhile_cons, if_pos hn,
        List.dropWhile_cons, if_pos hr, List.dropWhile_cons, if_pos hn]
      exact ih1
    · rw [List.dropWhile_cons, if_pos hr, List.dropWhile_cons, if_pos hn]
      exact ih2
  | case3 c rest hcase ih =>
    intro h
    have hc : c ≠ '\r' := by
      intro hc
      subst hc
      obtain ⟨r, hr2⟩ := crlfOnly_cr_head h
      exact hcase r rfl hr2
    have hrest : crlfOnly rest = true := crlfOnly_tail h
    obtain ⟨ih1, ih2⟩ := ih hrest
    by_cases hPc : P c = true
    · refine ⟨?_, ?_⟩
      · rw [crlfToLf_cons_other c rest (fun r hx _ => hc hx), List.dropWhile_cons,
          if_pos hPc, List.dropWhile_cons, if_pos hPc]
        exact ih1
      · rw [List.dropWhile_cons, if_pos hPc]
        exact ih2
    · refine ⟨?_, ?_⟩
      · rw [crlfToLf_cons_other c rest (fun r hx _ => hc hx), List.dropWhile_cons,
          if_neg hPc, List.dropWhile_cons, if_neg hPc,
          crlfToLf_cons_other c rest (fun r hx _ => hc hx)]
      · rw [List.dropWhile_cons, if_neg hPc]
        exact h

theorem rstrip_nil (P : Char → Bool) : rstrip P [] = [] := rfl

theorem rstrip_cons (P : Char → Bool) (c : Char) (rest : Str) :
    rstrip P (c :: rest) =
      match rstrip P rest with
      | [] => if P c then [] else [c]
      | r :: rs => c :: r :: rs := rfl

theorem crlfToLf_singleton (c : Char) : crlfToLf [c] = [c] := by
  rw [crlfToLf_cons_other c [] (fun r _ h => List.noConfusion h)]
  rfl

theorem rstrip_crlfToLf (P : Char → Bool) (hn : P '\n' = true) (hr : P '\r' = true) :
    ∀ y : Str, crlfOnly y = true →
      rstrip P (crlfToLf y) = crlfToLf (rstrip P y) ∧
      crlfOnly (rstrip P y) = true := by
  intro y
  induction y using crlfToLf.induct with
  | case1 => intro _; exact ⟨rfl, rfl⟩
  | case2 rest ih =>
    intro h
    have hrest : crlfOnly rest = true := crlfOnly_tail (crlfOnly_tail h)
    obtain ⟨ih1, ih2⟩ := ih hrest
    cases hR : rstrip P rest with
    | nil =>
      have e1 : rstrip P ('\n' :: rest) = [] := by
        rw [rstrip_cons, hR]
        simp [hn]
      have e2 : rstrip P ('\r' :: '\n' :: rest) = [] := by
        rw [rstrip_cons, e1]
        simp [hr]
      have e3 : rstrip P (crlfToLf rest) = [] := by
        rw [ih1, hR, crlfToLf_nil]
      have e4 : rstrip P ('\n' :: crlfToLf rest) = [] := by
        rw [rstrip_cons, e3]
        simp [hn]
      refine ⟨?_, ?_⟩
      · rw [crlfToLf_crlf, e4, e2, crlfToLf_nil]
      · rw [e2]
        rfl
    | cons x xs =>
      have e1 : rstrip P ('\n' :: rest) = '\n' :: x :: xs := by
        rw [rstrip_cons, hR]
      have e2 : rstrip P ('\r' :: '\n' :: rest) = '\r' :: '\n' :: x :: xs := by
        rw [rstrip_cons, e1]
      have e3 : rstrip P (crlfToLf rest) = crlfToLf (x :: xs) := by
        rw [ih1, hR]
      cases hcx : crlfToLf (x :: xs) with
      | nil =>
        exact absurd ((crlfToLf_eq_nil_iff _).mp hcx) (List.cons_ne_nil x xs)
      | cons a b =>
        have e4 : rstrip P ('\n' :: crlfToLf rest) = '\n' :: a :: b := by
          rw [rstrip_cons, e3, hcx]
        refine ⟨?_, ?_⟩
        · rw [crlfToLf_crlf, e4, e2, crlfToLf_crlf, hcx]
        · rw [e2, crlfOnly_cr]
          simp only [List.head?_cons, Option.some.injEq, decide_eq_true_eq,
            Bool.true_and]
          rw [crlfOnly_cons_other '\n' (x :: xs) (by decide)]
          rw [hR] at ih2
          simpa using ih2
  | case3 c rest hcase ih =>
    intro h
    have hc : c ≠ '\r' := by
      intro hc
      subst hc
      obtain ⟨r, hr2⟩ := crlfOnly_cr_head h
      exact hcase r rfl hr2
    have hrest : crlfOnly rest = true := crlfOnly_tail h
    obtain ⟨ih1, ih2⟩ := ih hrest
    have hcl : crlfToLf (c :: rest) = c :: crlfToLf rest :=
      crlfToLf_cons_other c rest (fun r hx _ => hc hx)
    cases hR : rstrip P rest with
    | nil =>
      have e3 : rstrip P (crlfToLf rest) = [] := by
        rw [ih1, hR, crlfToLf_nil]
      have e5 : rstrip P (c :: rest) = if P c then [] else [c] := by
        rw [rstrip_cons, hR]
      have e4 : rstrip P (c :: crlfToLf rest) = if P c then [] else [c] := by
        rw [rstrip_cons, e3]
      refine ⟨?_, ?_⟩
      · rw [hcl, e4, e5]
        by_cases hPc : P c = true
        · rw [if_pos hPc, crlfToLf_nil]
        · rw [if_neg hPc, crlfToLf_singleton]
      · rw [e5]
        by_cases hPc : P c = true
        · rw [if_pos hPc]
          rfl
        · rw [if_neg hPc, crlfOnly_cons_other c [] hc]
          rfl
    | cons x xs =>
      have e3 : rstrip P (crlfToLf rest) = crlfToLf (x :: xs) := by
        rw [ih1, hR]
      cases hcx : crlfToLf (x :: xs) with
      | nil =>
        exact absurd ((crlfToLf_eq_nil_iff _).mp hcx) (List.cons_ne_nil x xs)
      | cons a b =>
        have e4 : rstrip P (c :: crlfToLf rest) = c :: a :: b := by
          rw [rstrip_cons, e3, hcx]
        have e5 : rstrip P (c :: rest) = c :: x :: xs := by
          rw [rstrip_cons, hR]
        refine ⟨?_, ?_⟩
        · rw [hcl, e4, e5,
            crlfToLf_cons_other c (x :: xs) (fun r hx _ => hc hx), hcx]
        · rw [e5, crlfOnly_cons_other c (x :: xs) hc]
          rw [hR] at ih2
          exact ih2

theorem goTrimSpace_crlfToLf (y : Str) (h : crlfOnly y = true) :
    goTrimSpace (crlfToLf y) = crlfToLf (goTrimSpace y) ∧
    crlfOnly (goTrimSpace y) = true := by
  obtain ⟨d1, d2⟩ := dropWhile_crlfToLf goIsSpace (by decide) (by decide) y h
  obtain ⟨r1, r2⟩ :=
    rstrip_crlfToLf goIsSpace (by decide) (by decide) (y.dropWhile goIsSpace) d2
  constructor
  · unfold goTrimSpace
    rw [d1, r1]
  · exact r2

theorem isPrefixOf_cons₂ (a b : Char) (as bs : Str) :
    (a :: as).isPrefixOf (b :: bs) = (a == b && as.isPrefixOf bs) := rfl

theorem isPrefixOf_crlfToLf :
    ∀ (y : Str), crlfOnly y = true →
      ∀ (u : Str), (∀ c ∈ u, c ≠ '\r' ∧ c ≠ '\n') →
        u.isPrefixOf (crlfToLf y) = u.isPrefixOf y := by
  intro y
  induction y using crlfToLf.induct with
  | case1 =>
    intro _ u _
    rw [crlfToLf_nil]
  | case2 rest ih =>
    intro h u hu
    cases u with
    | nil => rfl
    | cons d u' =>
      have hd := hu d (List.mem_cons_self _ _)
      rw [crlfToLf_crlf, isPrefixOf_cons₂, isPrefixOf_cons₂,
        beq_eq_false_iff_ne.mpr hd.2, beq_eq_false_iff_ne.mpr hd.1,
        Bool.false_and, Bool.false_and]
  | case3 c rest hcase ih =>
    intro h u hu
    have hc : c ≠ '\r' := by
      intro hx
      subst hx
      obtain ⟨r, hr2⟩ := crlfOnly_cr_head h
      exact hcase r rfl hr2
    rw [crlfToLf_cons_other c rest (fun r hx _ => hc hx)]
    cases u with
    | nil => rfl
    | cons d u' =>
      rw [isPrefixOf_cons₂, isPrefixOf_cons₂,
        ih (crlfOnly_tail h) u' (fun x hx => hu x (List.mem_cons_of_mem _ hx))]

theorem wsThenMarker_crlfToLf (y : Str) (h : crlfOnly y = true) :
    wsThenMarker (crlfToLf y) = wsThenMarker y := by
  unfold wsThenMarker
  obtain ⟨d1, d2⟩ := dropWhile_crlfToLf reSpace (by decide) (by decide) y h
  rw [d1, isPrefixOf_crlfToLf _ d2 markerL (by decide)]

theorem splitNewline_crlfToLf :
    ∀ y : Str, crlfOnly y = true → splitNewline (crlfToLf y) = splitNewline y := by
  intro y
  induction y using crlfToLf.induct with
  | case1 =>
    intro _
    rfl
  | case2 rest ih =>
    intro h
    rw [crlfToLf_crlf, splitNewline_cons_lf, splitNewline_cons_crlf,
      ih (crlfOnly_tail (crlfOnly_tail h))]
  | case3 c rest hcase ih =>
    intro h
    have hc : c ≠ '\r' := by
      intro hx
      subst hx
      obtain ⟨r, hr2⟩ := crlfOnly_cr_head h
      exact hcase r rfl hr2
    have ih' := ih (crlfOnly_tail h)
    rw [crlfToLf_cons_other c rest (fun r hx _ => hc hx)]
    by_cases hcn : c = '\n'
    · subst hcn
      rw [splitNewline_cons_lf, splitNewline_cons_lf, ih']
    · rw [splitNewline_cons_other c (crlfToLf rest) (fun r hx _ => hc hx)
          (fun hx => hcn hx),
        splitNewline_cons_other c rest (fun r hx _ => hc hx) (fun hx => hcn hx),
        ih']

theorem pieceLines_crlfToLf (q : Str) (h : crlfOnly q = true) :
    pieceLines (crlfToLf q) = pieceLines q := by
  obtain ⟨t1, t2⟩ := goTrimSpace_crlfToLf q h
  unfold pieceLines
  rw [t1, splitNewline_crlfToLf _ t2]

theorem crlfToLf_cons_lf (x : Str) : crlfToLf ('\n' :: x) = '\n' :: crlfToLf x :=
  crlfToLf_cons_other '\n' x (fun r hx _ => absurd hx (by decide))

theorem splitMarker_crlfToLf :
    ∀ s : Str, crlfOnly s = true →
      splitMarker (crlfToLf s) = (splitMarker s).map crlfToLf ∧
      ∀ p ∈ splitMarker s, crlfOnly p = true := by
  intro s
  induction s using splitMarker_rec with
  | h0 =>
    intro _
    refine ⟨rfl, ?_⟩
    intro p hp
    rcases List.mem_singleton.mp hp with rfl
    rfl
  | hm c rest hb ih =>
    intro h
    obtain ⟨z, hz⟩ := List.isPrefixOf_iff_prefix.mp hb
    have hzdrop : z = List.drop 8 rest := by
      have h9 : List.drop 9 (markerL ++ z) = List.drop 9 (c :: rest) := by rw [hz]
      rw [List.drop_left' (show markerL.length = 9 from rfl)] at h9
      simpa using h9
    have hcrlz : crlfOnly z = true := by
      apply crlfOnly_append_right markerL
      rw [hz]
      exact h
    have hclf : crlfToLf (c :: rest) = markerL ++ crlfToLf z := by
      rw [← hz, crlfToLf_append_no_cr markerL z (by decide)]
    rw [← hzdrop] at ih
    obtain ⟨ih1, ih2⟩ := ih hcrlz
    constructor
    · rw [hclf, splitMarker_marker_append, ih1, ← hz, splitMarker_marker_append,
        List.map_cons]
      rfl
    · intro p hp
      rw [← hz, splitMarker_marker_append] at hp
      rcases List.mem_cons.mp hp with rfl | hp2
      · rfl
      · exact ih2 p hp2
  | hw c rest hb hw2 ih =>
    intro h
    have hsm : splitMarker (c :: rest) = splitMarker rest := by
      rw [splitMarker_cons, if_neg (by simp [hb]), if_pos hw2]
    obtain ⟨ih1, ih2⟩ := ih (crlfOnly_tail h)
    by_cases hcr : c = '\r'
    · subst hcr
      obtain ⟨r, hrn⟩ := crlfOnly_cr_head h
      subst hrn
      have hcc : crlfToLf ('\r' :: '\n' :: r) = crlfToLf ('\n' :: r) := by
        rw [crlfToLf_crlf,
          crlfToLf_cons_other '\n' r (fun r2 hx _ => absurd hx (by decide))]
      constructor
      · rw [hcc, ih1, hsm]
      · intro p hp
        rw [hsm] at hp
        exact ih2 p hp
    · have hcc : crlfToLf (c :: rest) = c :: crlfToLf rest :=
        crlfToLf_cons_other c rest (fun r hx _ => hcr hx)
      have hbL : markerL.isPrefixOf (c :: crlfToLf rest) = false := by
        rw [← hcc, isPrefixOf_crlfToLf (c :: rest) h markerL (by decide)]
        exact hb
      have hwL : wsThenMarker (crlfToLf rest) = wsThenMarker rest :=
        wsThenMarker_crlfToLf rest (crlfOnly_tail h)
      constructor
      · rw [hcc, splitMarker_cons, if_neg (by simp [hbL]),
          if_pos (by rw [hwL]; exact hw2), ih1, hsm]
      · intro p hp
        rw [hsm] at hp
        exact ih2 p hp
  | ho c rest hb hw2 ih =>
    intro h
    obtain ⟨ih1, ih2⟩ := ih (crlfOnly_tail h)
    cases hsr : splitMarker rest with
    | nil => exact absurd hsr (splitMarker_ne_nil rest)
    | cons p ps =>
    have hsm : splitMarker (c :: rest) = (c :: p) :: ps := by
      rw [splitMarker_cons, if_neg (by simp [hb]), if_neg (by simp [hw2]), hsr]
    by_cases hcr : c = '\r'
    · subst hcr
      obtain ⟨r, hrn⟩ := crlfOnly_cr_head h
      subst hrn
      have hwr : wsThenMarker ('\n' :: r) = false := by
        have hre : reSpace '\r' = true := by decide
        simp only [hre, Bool.true_and] at hw2
        exact hw2
      have hwr2 : wsThenMarker r = false := by
        have he : wsThenMarker ('\n' :: r) = wsThenMarker r := by
          unfold wsThenMarker
          rw [List.dropWhile_cons, if_pos (by decide)]
        rwa [he] at hwr
      cases hsr2 : splitMarker r with
      | nil => exact absurd hsr2 (splitMarker_ne_nil r)
      | cons p' ps' =>
      have hbn : markerL.isPrefixOf ('\n' :: r) = false := rfl
      have hsn : splitMarker ('\n' :: r) = ('\n' :: p') :: ps' := by
        rw [splitMarker_cons, if_neg (by simp [hbn]), if_neg (by simp [hwr2]), hsr2]
      rw [hsn] at hsr
      injection hsr with hp1 hp2
      have hcn : crlfToLf ('\n' :: r) = '\n' :: crlfToLf r :=
        crlfToLf_cons_other '\n' r (fun r2 hx _ => absurd hx (by decide))
      constructor
      · rw [crlfToLf_crlf, ← hcn, ih1, hsn, hsm, List.map_cons, List.map_cons,
          ← hp1, ← hp2, crlfToLf_crlf, crlfToLf_cons_lf]
      · intro px hpx
        rw [hsm] at hpx
        rcases List.mem_cons.mp hpx with rfl | hpx2
        · have hcp : crlfOnly ('\n' :: p') = true :=
            ih2 ('\n' :: p') (by rw [hsn]; exact List.mem_cons_self _ _)
          rw [← hp1, crlfOnly_cr]
          simp [hcp]
        · rw [← hp2] at hpx2
          exact ih2 px (by rw [hsn]; exact List.mem_cons_of_mem _ hpx2)
    · have hcc : crlfToLf (c :: rest) = c :: crlfToLf rest :=
        crlfToLf_cons_other c rest (fun r hx _ => hcr hx)
      have hbL : markerL.isPrefixOf (c :: crlfToLf rest) = false := by
        rw [← hcc, isPrefixOf_crlfToLf (c :: rest) h markerL (by decide)]
        exact hb
      have hwL : (reSpace c && wsThenMarker (crlfToLf rest)) = false := by
        rw [wsThenMarker_crlfToLf rest (crlfOnly_tail h)]
        exact hw2
      constructor
      · rw [hcc, splitMarker_cons, if_neg (by simp [hbL]), if_neg (by simp [hwL]),
          ih1, hsr, hsm, List.map_cons, List.map_cons,
          crlfToLf_cons_other c p (fun r hx _ => hcr hx)]
      · intro px hpx
        rw [hsm] at hpx
        rcases List.mem_cons.mp hpx with rfl | hpx2
        · rw [crlfOnly_cons_other c p hcr]
          exact ih2 p (by rw [hsr]; exact List.mem_cons_self _ _)
        · exact ih2 px (by rw [hsr]; exact List.mem_cons_of_mem _ hpx2)

theorem extractLoop_crlfToLf (ps : List Str) (m : QMap)
    (h : ∀ q ∈ ps, crlfOnly q = true) :
    extractLoop m (ps.map crlfToLf) = extractLoop m ps := by
  induction ps generalizing m with
  | nil => rfl
  | cons q rest ih =>
    rw [List.map_cons, extractLoop_cons, extractLoop_cons]
    have hq := h q (List.mem_cons_self _ _)
    have hl : pieceLines (crlfToLf q) = pieceLines q := pieceLines_crlfToLf q hq
    have hn : pieceName (crlfToLf q) = pieceName q := by
      unfold pieceName
      rw [hl]
    have hbdy : pieceBody (crlfToLf q) = pieceBody q := by
      unfold pieceBody
      rw [hl]
    rw [hn, hbdy]
    by_cases hv : validQueryName (pieceName q) = true
    · rw [if_pos hv, if_pos hv, ih _ (fun x hx => h x (List.mem_cons_of_mem _ hx))]
    · rw [if_neg hv, if_neg hv]

theorem extractQueryMap_crlfToLf (s : Str) (h : crlfOnly s = true) :
    extractQueryMap (crlfToLf s) = extractQueryMap s := by
  obtain ⟨h1, h2⟩ := splitMarker_crlfToLf s h
  rw [extractQueryMap, extractQueryMap, h1, List.length_map]
  by_cases hlen : (splitMarker s).length ≤ 1
  · rw [if_pos hlen, if_pos hlen]
  · rw [if_neg hlen, if_neg hlen]
    cases hsp : splitMarker s with
    | nil => exact absurd hsp (splitMarker_ne_nil s)
    | cons a t =>
      rw [List.map_cons, List.tail_cons, List.tail_cons]
      exact extractLoop_crlfToLf t []
        (fun q hq => h2 q (by rw [hsp]; exact List.mem_cons_of_mem _ hq))

theorem splitNewline_no_cr :
    ∀ y : Str, crlfOnly y = true → ∀ l ∈ splitNewline y, '\r' ∉ l := by
  intro y
  induction y using splitNewline.induct with
  | case1 =>
    intro _ l hl
    rcases List.mem_singleton.mp hl with rfl
    exact List.not_mem_nil _
  | case2 rest ih =>
    intro h l hl
    rw [splitNewline_cons_crlf] at hl
    rcases List.mem_cons.mp hl with rfl | hl2
    · exact List.not_mem_nil _
    · exact ih (crlfOnly_tail (crlfOnly_tail h)) l hl2
  | case3 rest ih =>
    intro h l hl
    rw [splitNewline_cons_lf] at hl
    rcases List.mem_cons.mp hl with rfl | hl2
    · exact List.not_mem_nil _
    · exact ih (crlfOnly_tail h) l hl2
  | case4 c rest h1 h2 heq ih =>
    intro h l hl
    have hc : c ≠ '\r' := by
      intro hx
      subst hx
      obtain ⟨r, hr2⟩ := crlfOnly_cr_head h
      exact h1 r rfl hr2
    rw [splitNewline_cons_other c rest h1 h2, heq] at hl
    rcases List.mem_singleton.mp hl with rfl
    intro hx
    rcases List.mem_singleton.mp hx with rfl
    exact hc rfl
  | case5 c rest h1 h2 p ps heq ih =>
    intro h l hl
    have hc : c ≠ '\r' := by
      intro hx
      subst hx
      obtain ⟨r, hr2⟩ := crlfOnly_cr_head h
      exact h1 r rfl hr2
    have hcr : crlfOnly rest = true := crlfOnly_tail h
    rw [splitNewline_cons_other c rest h1 h2, heq] at hl
    rcases List.mem_cons.mp hl with rfl | hl2
    · intro hx
      rcases List.mem_cons.mp hx with hx1 | hx2
      · exact hc hx1.symm
      · exact ih hcr p (by rw [heq]; exact List.mem_cons_self _ _) hx2
    · exact ih hcr l (by rw [heq]; exact List.mem_cons_of_mem _ hl2)

theorem mem_intercalate_lf (ls : List Str) (x : Char)
    (hx : x ∈ List.intercalate ['\n'] ls) :
    x = '\n' ∨ ∃ l ∈ ls, x ∈ l := by
  induction ls with
  | nil => exact absurd hx (List.not_mem_nil x)
  | cons l ks ih =>
    cases ks with
    | nil =>
      rw [intercalate_lf_singleton] at hx
      exact Or.inr ⟨l, List.mem_cons_self _ _, hx⟩
    | cons l2 ks' =>
      rw [intercalate_lf_cons₂] at hx
      rcases List.mem_append.mp hx with h1 | h2
      · exact Or.inr ⟨l, List.mem_cons_self _ _, h1⟩
      · rcases List.mem_cons.mp h2 with rfl | h3
        · exact Or.inl rfl
        · rcases ih h3 with h4 | ⟨l', hl', hxl⟩
          · exact Or.inl h4
          · exact Or.inr ⟨l', List.mem_cons_of_mem _ hl', hxl⟩

theorem mem_mapInsert_values {β : Type} (m : List (Str × β)) (k : Str) (v : β)
    (kv : Str × β) (h : kv ∈ mapInsert m k v) : kv ∈ m ∨ kv.2 = v := by
  induction m with
  | nil =>
    rcases List.mem_singleton.mp h with rfl
    exact Or.inr rfl
  | cons kv₁ rest ih =>
    obtain ⟨k₁, v₁⟩ := kv₁
    rw [mapInsert] at h
    by_cases hk : k = k₁
    · rw [if_pos hk] at h
      rcases List.mem_cons.mp h with rfl | h2
      · exact Or.inr rfl
      · exact Or.inl (List.mem_cons_of_mem _ h2)
    · rw [if_neg hk] at h
      rcases List.mem_cons.mp h with rfl | h2
      · exact Or.inl (List.mem_cons_self _ _)
      · rcases ih h2 with h3 | h3
        · exact Or.inl (List.mem_cons_of_mem _ h3)
        · exact Or.inr h3

theorem extractLoop_ok_values (ps : List Str) :
    ∀ (m m' : QMap), extractLoop m ps = .ok m' →
      ∀ kv ∈ m', kv ∈ m ∨ ∃ q ∈ ps, kv.2 = pieceBody q := by
  induction ps with
  | nil =>
    intro m m' h kv hkv
    rw [extractLoop_nil] at h
    injection h with hm
    rw [← hm] at hkv
    exact Or.inl hkv
  | cons q rest ih =>
    intro m m' h kv hkv
    rw [extractLoop_cons] at h
    by_cases hv : validQueryName (pieceName q) = true
    · rw [if_pos hv] at h
      rcases ih _ _ h kv hkv with hin | ⟨q', hq', hb⟩
      · rcases mem_mapInsert_values _ _ _ _ hin with h2 | h2
        · exact Or.inl h2
        · exact Or.inr ⟨q, List.mem_cons_self _ _, h2⟩
      · exact Or.inr ⟨q', List.mem_cons_of_mem _ hq', hb⟩
    · rw [if_neg hv] at h
      exact Except.noConfusion h

/-! ## Claim C10: CRLF and LF line endings segment identically -/

/-- C10: for a text that uses only CRLF (or LF) line endings (every
carriage return is immediately followed by a newline), replacing the
CRLF pairs by LF does not change the result of segmentation at all, and
no carriage return of a CRLF pair ever reaches an emitted body. -/
theorem extractQueryMap_crlf_equiv (s : Str) (h : crlfOnly s = true) :
    extractQueryMap (crlfToLf s) = extractQueryMap s ∧
    (∀ m, extractQueryMap s = .ok m → ∀ kv ∈ m, '\r' ∉ kv.2) := by
  refine ⟨extractQueryMap_crlfToLf s h, ?_⟩
  intro m hm kv hkv
  rw [extractQueryMap] at hm
  by_cases hlen : (splitMarker s).length ≤ 1
  · rw [if_pos hlen] at hm
    injection hm with hm0
    rw [← hm0] at hkv
    exact absurd hkv (List.not_mem_nil kv)
  · rw [if_neg hlen] at hm
    rcases extractLoop_ok_values _ _ _ hm kv hkv with hin | ⟨q, hq, hb⟩
    · exact absurd hin (List.not_mem_nil kv)
    · have hcrq : crlfOnly q = true :=
        (splitMarker_crlfToLf s h).2 q (List.mem_of_mem_tail hq)
      rw [hb]
      intro hcr
      unfold pieceBody extractSql at hcr
      rcases mem_intercalate_lf _ _ hcr with h1 | ⟨l, hl, hxl⟩
      · exact absurd h1 (by decide)
      · have hl3 : l ∈ pieceLines q :=
          List.mem_of_mem_tail (List.mem_of_mem_filter hl)
        exact splitNewline_no_cr (goTrimSpace q)
          (goTrimSpace_crlfToLf q hcrq).2 l hl3 hxl

/-- C10 witness: evaluation on a two-statement CRLF text. -/
theorem extractQueryMap_crlf_equiv_witness :
    (crlfOnly ("-- query: a\r\nX\r\n\r\n-- query: b\r\nY".toList) = true) ∧
    (extractQueryMap (crlfToLf ("-- query: a\r\nX\r\n\r\n-- query: b\r\nY".toList)) =
      extractQueryMap ("-- query: a\r\nX\r\n\r\n-- query: b\r\nY".toList) ∧
    (∀ m, extractQueryMap ("-- query: a\r\nX\r\n\r\n-- query: b\r\nY".toList) = .ok m →
      ∀ kv ∈ m, '\r' ∉ kv.2)) :=
  ⟨by decide, extractQueryMap_crlf_equiv _ (by decide)⟩

/-! ## Splitting a concatenation of texts -/

theorem reSpace_goIsSpace {c : Char} (h : reSpace c = true) : goIsSpace c = true := by
  unfold goIsSpace
  rw [h]
  rfl

theorem markerL_isPrefixOf_ws {c : Char} (x : Str) (h : reSpace c = true) :
    markerL.isPrefixOf (c :: x) = false := by
  have hc : c ≠ '-' := by
    intro hx
    subst hx
    exact absurd h (by decide)
  rw [show markerL = '-' :: "- query:".toList from rfl, isPrefixOf_cons₂,
    beq_eq_false_iff_ne.mpr (fun hx => hc hx.symm), Bool.false_and]

theorem isPrefixOf_append_no_newline :
    ∀ (u x y : Str), '\n' ∉ u →
      u.isPrefixOf (x ++ '\n' :: y) = u.isPrefixOf x := by
  intro u
  induction u with
  | nil =>
    intro x y _
    cases x <;> rfl
  | cons d u' ih =>
    intro x y hu
    have hd : d ≠ '\n' := fun hx => hu (by rw [hx]; exact List.mem_cons_self _ _)
    cases x with
    | nil =>
      rw [List.nil_append, isPrefixOf_cons₂, beq_eq_false_iff_ne.mpr hd,
        Bool.false_and]
      rfl
    | cons e x' =>
      rw [List.cons_append, isPrefixOf_cons₂, isPrefixOf_cons₂,
        ih x' y (fun hx => hu (List.mem_cons_of_mem _ hx))]

theorem isPrefixOf_append_ext {u v : Str} (w : Str) (h : u.isPrefixOf v = true) :
    u.isPrefixOf (v ++ w) = true := by
  rw [List.isPrefixOf_iff_prefix] at h ⊢
  exact h.trans (List.prefix_append v w)

theorem dropWhile_append_ne_nil {P : Char → Bool} :
    ∀ (u v : Str), u.dropWhile P ≠ [] →
      (u ++ v).dropWhile P = u.dropWhile P ++ v := by
  intro u
  induction u with
  | nil =>
    intro v h
    exact absurd rfl h
  | cons c u' ih =>
    intro v h
    rw [List.cons_append, List.dropWhile_cons, List.dropWhile_cons]
    rw [List.dropWhile_cons] at h
    by_cases hc : P c = true
    · rw [if_pos hc, if_pos hc]
      rw [if_pos hc] at h
      exact ih v h
    · rw [if_neg hc, if_neg hc, List.cons_append]

theorem dropWhile_append_all {P : Char → Bool} :
    ∀ (u v : Str), (∀ c ∈ u, P c = true) →
      (u ++ v).dropWhile P = v.dropWhile P := by
  intro u
  induction u with
  | nil => intro v _; rfl
  | cons c u' ih =>
    intro v h
    rw [List.cons_append, List.dropWhile_cons, if_pos (h c (List.mem_cons_self _ _))]
    exact ih v (fun x hx => h x (List.mem_cons_of_mem _ hx))

theorem wsThenMarker_append {u : Str} (v : Str) (h : wsThenMarker u = true) :
    wsThenMarker (u ++ v) = true := by
  unfold wsThenMarker at h ⊢
  have hne : u.dropWhile reSpace ≠ [] := by
    intro hx
    rw [hx] at h
    exact absurd h (by decide)
  rw [dropWhile_append_ne_nil u v hne]
  exact isPrefixOf_append_ext v h

/-- A whitespace run before a marker splits into the empty piece followed
by the split of the rest, and that rest is itself non-trivial. -/
theorem splitMarker_wsThenMarker :
    ∀ t : Str, wsThenMarker t = true →
      ∃ ts, splitMarker t = [] :: ts ∧ ts ≠ [] := by
  intro t
  induction t using splitMarker_rec with
  | h0 =>
    intro h
    exact absurd h (by decide)
  | hm c rest hb ih =>
    intro h
    refine ⟨splitMarker (List.drop 8 rest), ?_, splitMarker_ne_nil _⟩
    rw [splitMarker_cons, if_pos hb]
  | hw c rest hb hw2 ih =>
    intro h
    have hw3 : wsThenMarker rest = true := by
      simp only [Bool.and_eq_true] at hw2
      exact hw2.2
    obtain ⟨ts, hts, htsne⟩ := ih hw3
    refine ⟨ts, ?_, htsne⟩
    rw [splitMarker_cons, if_neg (by simp [hb]), if_pos hw2, hts]
  | ho c rest hb hw2 ih =>
    intro h
    exfalso
    unfold wsThenMarker at h
    rw [List.dropWhile_cons] at h
    by_cases hc : reSpace c = true
    · rw [if_pos hc] at h
      simp only [hc, Bool.true_and] at hw2
      rw [show wsThenMarker rest = markerL.isPrefixOf (rest.dropWhile reSpace) from rfl]
        at hw2
      rw [h] at hw2
      cases hw2
    · rw [if_neg hc] at h
      rw [h] at hb
      cases hb

theorem splitMarker_all_ws :
    ∀ (b t : Str), (∀ c ∈ b, reSpace c = true) → wsThenMarker t = true →
      splitMarker (b ++ '\n' :: t) = splitMarker t := by
  intro b
  induction b with
  | nil =>
    intro t hb hws
    rw [List.nil_append, splitMarker_cons,
      if_neg (by simp [markerL_isPrefixOf_ws t (show reSpace '\n' = true by decide)]),
      if_pos (by rw [hws]; decide)]
  | cons c b' ih =>
    intro t hb hws
    have hc : reSpace c = true := hb c (List.mem_cons_self _ _)
    have hb' : ∀ x ∈ b', reSpace x = true := fun x hx => hb x (List.mem_cons_of_mem _ hx)
    have hwsr : wsThenMarker (b' ++ '\n' :: t) = true := by
      unfold wsThenMarker
      rw [dropWhile_append_all b' ('\n' :: t) hb', List.dropWhile_cons,
        if_pos (by decide)]
      exact hws
    rw [List.cons_append, splitMarker_cons,
      if_neg (by simp [markerL_isPrefixOf_ws _ hc]),
      if_pos (by rw [hwsr, hc]; rfl)]
    exact ih t hb' hws

theorem splitMarker_singleton :
    ∀ (x p : Str), splitMarker x = [p] → p = x := by
  intro x
  induction x using splitMarker_rec with
  | h0 =>
    intro p h
    rw [splitMarker_nil] at h
    injection h with h1
    exact h1.symm
  | hm c rest hb ih =>
    intro p h
    rw [splitMarker_cons, if_pos hb] at h
    injection h with h1 h2
    exact absurd h2 (splitMarker_ne_nil _)
  | hw c rest hb hw2 ih =>
    intro p h
    rw [splitMarker_cons, if_neg (by simp [hb]), if_pos hw2] at h
    have hw3 : wsThenMarker rest = true := by
      simp only [Bool.and_eq_true] at hw2
      exact hw2.2
    obtain ⟨ts, hts, htsne⟩ := splitMarker_wsThenMarker rest hw3
    rw [hts] at h
    injection h with h1 h2
    exact absurd h2 htsne
  | ho c rest hb hw2 ih =>
    intro p h
    rw [splitMarker_cons, if_neg (by simp [hb]), if_neg (by simp [hw2])] at h
    cases hsr : splitMarker rest with
    | nil => exact absurd hsr (splitMarker_ne_nil rest)
    | cons p₁ ps₁ =>
      rw [hsr] at h
      injection h with h1 h2
      rw [h2] at hsr
      rw [← h1, ih p₁ hsr]

theorem rstrip_cons_of (P : Char → Bool) (c : Char) (x : Str)
    (h : rstrip P x ≠ [] ∨ P c = false) :
    rstrip P (c :: x) = c :: rstrip P x := by
  rw [rstrip_cons]
  cases hr : rstrip P x with
  | nil =>
    rcases h with h | h
    · exact absurd hr h
    · rw [if_neg (by rw [h]; exact Bool.false_ne_true)]
  | cons r rs => rfl

theorem rstrip_eq_nil (P : Char → Bool) :
    ∀ x : Str, rstrip P x = [] → ∀ c ∈ x, P c = true := by
  intro x
  induction x with
  | nil =>
    intro _ c hc
    exact absurd hc (List.not_mem_nil c)
  | cons c t ih =>
    intro h d hd
    rw [rstrip_cons] at h
    cases hr : rstrip P t with
    | cons r rs =>
      rw [hr] at h
      exact absurd h (by simp)
    | nil =>
      rw [hr] at h
      have hc : P c = true := by
        by_cases hx : P c = true
        · exact hx
        · rw [if_neg hx] at h
          exact absurd h (by simp)
      rcases List.mem_cons.mp hd with rfl | hd'
      · exact hc
      · exact ih hr d hd'

theorem rstrip_decomp (P : Char → Bool) :
    ∀ x : Str, ∃ w, x = rstrip P x ++ w ∧ ∀ c ∈ w, P c = true := by
  intro x
  induction x with
  | nil => exact ⟨[], rfl, fun c hc => absurd hc (List.not_mem_nil c)⟩
  | cons c t ih =>
    obtain ⟨w, hw, hall⟩ := ih
    by_cases hr : rstrip P t = []
    · rw [hr, List.nil_append] at hw
      by_cases hc : P c = true
      · have hz : rstrip P (c :: t) = [] := by
          apply rstrip_all
          intro d hd
          rcases List.mem_cons.mp hd with rfl | hd'
          · exact hc
          · rw [hw] at hd'
            exact hall d hd'
        refine ⟨c :: t, ?_, ?_⟩
        · rw [hz, List.nil_append]
        · intro d hd
          rcases List.mem_cons.mp hd with rfl | hd'
          · exact hc
          · rw [hw] at hd'
            exact hall d hd'
      · rw [rstrip_cons_of P c t (Or.inr (by
          cases hx : P c with
          | false => rfl
          | true => exact absurd hx hc)), hr]
        exact ⟨w, by rw [← hw, List.singleton_append], hall⟩
    · rw [rstrip_cons_of P c t (Or.inl hr)]
      exact ⟨w, by rw [List.cons_append, ← hw], hall⟩

theorem goTrimSpace_rstrip (q : Str) :
    goTrimSpace (rstrip reSpace q) = goTrimSpace q := by
  obtain ⟨w, hw, hall⟩ := rstrip_decomp reSpace q
  have hallSp : ∀ c ∈ w, goIsSpace c = true := fun c hc => reSpace_goIsSpace (hall c hc)
  conv_rhs => rw [hw]
  unfold goTrimSpace
  by_cases hdw : (rstrip reSpace q).dropWhile goIsSpace = []
  · have hallq : ∀ c ∈ rstrip reSpace q, goIsSpace c = true := by
      intro c hc
      have := List.dropWhile_eq_nil_iff.mp hdw c hc
      simpa using this
    rw [hdw, dropWhile_append_all _ w hallq,
      List.dropWhile_eq_nil_iff.mpr (by intro x hx; simpa using hallSp x hx)]
  · rw [dropWhile_append_ne_nil _ w hdw, rstrip_append_all _ hallSp]

theorem pieceLines_rstrip (q : Str) :
    pieceLines (rstrip reSpace q) = pieceLines q := by
  unfold pieceLines
  rw [goTrimSpace_rstrip]

theorem pieceName_rstrip (q : Str) : pieceName (rstrip reSpace q) = pieceName q := by
  unfold pieceName
  rw [pieceLines_rstrip]

theorem pieceBody_rstrip (q : Str) : pieceBody (rstrip reSpace q) = pieceBody q := by
  unfold pieceBody
  rw [pieceLines_rstrip]

theorem modLast_cons (p q : Str) (qs : List Str) :
    modLast (p :: q :: qs) = p :: modLast (q :: qs) := rfl

theorem no_marker_of_all_ws {s : Str} (h : ∀ c ∈ s, reSpace c = true) :
    ¬ markerL <:+: s := by
  intro hinf
  obtain ⟨l, r, hlr⟩ := hinf
  have hm9 : '-' ∈ markerL := by decide
  have hmem : '-' ∈ s := by
    rw [← hlr]
    exact List.mem_append_left r (List.mem_append_right l hm9)
  have := h '-' hmem
  exact absurd this (by decide)

/-- Splitting a text extended by a newline and a remainder that begins
with whitespace and the marker: the pieces of the first text, with the
trailing regex whitespace of the last piece consumed by the new match,
followed by the pieces of the remainder after its leading empty piece. -/
theorem splitMarker_append_marker (t : Str) (hws : wsThenMarker t = true) :
    ∀ a : Str, splitMarker (a ++ '\n' :: t) =
      modLast (splitMarker a) ++ (splitMarker t).tail := by
  obtain ⟨ts, hts, htsne⟩ := splitMarker_wsThenMarker t hws
  intro a
  induction a using splitMarker_rec with
  | h0 =>
    have hall := splitMarker_all_ws [] t (fun c hc => absurd hc (List.not_mem_nil c)) hws
    rw [List.nil_append] at hall
    rw [List.nil_append, hall, splitMarker_nil, hts, List.tail_cons]
    rfl
  | hm c rest hb ih =>
    obtain ⟨u, hu⟩ := List.isPrefixOf_iff_prefix.mp hb
    have hrest : rest = "- query:".toList ++ u := by
      rw [show markerL = '-' :: "- query:".toList from rfl, List.cons_append] at hu
      injection hu with h1 h2
      exact h2.symm
    have hdrop : List.drop 8 rest = u := by
      rw [hrest, List.drop_left' (show ("- query:".toList).length = 8 from rfl)]
    have hb2 : markerL.isPrefixOf (c :: (rest ++ '\n' :: t)) = true := by
      rw [show c :: (rest ++ '\n' :: t) = (c :: rest) ++ '\n' :: t from rfl]
      exact isPrefixOf_append_ext _ hb
    have hdrop2 : List.drop 8 (rest ++ '\n' :: t) = u ++ '\n' :: t := by
      rw [hrest, List.append_assoc,
        List.drop_left' (show ("- query:".toList).length = 8 from rfl)]
    have hR : splitMarker (c :: rest) = [] :: splitMarker u := by
      rw [splitMarker_cons, if_pos hb, hdrop]
    rw [hdrop] at ih
    rw [List.cons_append, splitMarker_cons, if_pos hb2, hdrop2, ih, hR]
    cases hq : splitMarker u with
    | nil => exact absurd hq (splitMarker_ne_nil u)
    | cons q qs =>
      rw [modLast_cons, List.cons_append]
  | hw c rest hb hw2 ih =>
    have hb2 : markerL.isPrefixOf (c :: (rest ++ '\n' :: t)) = false := by
      rw [show c :: (rest ++ '\n' :: t) = (c :: rest) ++ '\n' :: t from rfl,
        isPrefixOf_append_no_newline markerL (c :: rest) t (by decide)]
      exact hb
    have hsp : reSpace c = true := by
      simp only [Bool.and_eq_true] at hw2
      exact hw2.1
    have hwm : wsThenMarker rest = true := by
      simp only [Bool.and_eq_true] at hw2
      exact hw2.2
    have hw3 : (reSpace c && wsThenMarker (rest ++ '\n' :: t)) = true := by
      rw [hsp, wsThenMarker_append ('\n' :: t) hwm]
      rfl
    have hL : splitMarker (c :: rest) = splitMarker rest := by
      rw [splitMarker_cons, if_neg (by simp [hb]), if_pos hw2]
    rw [List.cons_append, splitMarker_cons, if_neg (by simp [hb2]), if_pos hw3, hL]
    exact ih
  | ho c rest hb hw2 ih =>
    have hb2 : markerL.isPrefixOf (c :: (rest ++ '\n' :: t)) = false := by
      rw [show c :: (rest ++ '\n' :: t) = (c :: rest) ++ '\n' :: t from rfl,
        isPrefixOf_append_no_newline markerL (c :: rest) t (by decide)]
      exact hb
    rw [List.cons_append, splitMarker_cons, if_neg (by simp [hb2])]
    by_cases hw3 : (reSpace c && wsThenMarker (rest ++ '\n' :: t)) = true
    · have hsp : reSpace c = true := by
        simp only [Bool.and_eq_true] at hw3
        exact hw3.1
      have hwm2 : wsThenMarker (rest ++ '\n' :: t) = true := by
        simp only [Bool.and_eq_true] at hw3
        exact hw3.2
      have hwmrest : wsThenMarker rest = false := by
        cases hx : wsThenMarker rest with
        | false => rfl
        | true =>
          rw [hsp, hx] at hw2
          exact absurd hw2 (by simp)
      have hallrest : ∀ d ∈ rest, reSpace d = true := by
        by_cases hdw : rest.dropWhile reSpace = []
        · intro d hd
          have := List.dropWhile_eq_nil_iff.mp hdw d hd
          simpa using this
        · exfalso
          unfold wsThenMarker at hwm2 hwmrest
          rw [dropWhile_append_ne_nil rest ('\n' :: t) hdw,
            isPrefixOf_append_no_newline markerL (rest.dropWhile reSpace) t (by decide),
            hwmrest] at hwm2
          exact absurd hwm2 (by simp)
      have hnomark : ¬ markerL <:+: rest := no_marker_of_all_ws hallrest
      have hL : splitMarker (c :: rest) = [c :: rest] := by
        rw [splitMarker_cons, if_neg (by simp [hb]), if_neg (by simp [hw2]),
          splitMarker_no_marker rest hnomark]
      have hstrip : rstrip reSpace (c :: rest) = [] := by
        apply rstrip_all
        intro d hd
        rcases List.mem_cons.mp hd with rfl | hd'
        · exact hsp
        · exact hallrest d hd'
      rw [if_pos hw3, splitMarker_all_ws rest t hallrest hws, hL, hts, List.tail_cons,
        show modLast [c :: rest] = [rstrip reSpace (c :: rest)] from rfl, hstrip]
      rfl
    · rw [if_neg hw3]
      cases hq : splitMarker rest with
      | nil => exact absurd hq (splitMarker_ne_nil rest)
      | cons q qs =>
        have hL : splitMarker (c :: rest) = (c :: q) :: qs := by
          rw [splitMarker_cons, if_neg (by simp [hb]), if_neg (by simp [hw2]), hq]
        rw [ih, hq, hL]
        cases qs with
        | nil =>
          have hqrest : q = rest := splitMarker_singleton rest q hq
          have hrc : rstrip reSpace (c :: q) = c :: rstrip reSpace q := by
            apply rstrip_cons_of
            by_cases hsp : reSpace c = true
            · left
              have hwmrest : wsThenMarker (rest ++ '\n' :: t) = false := by
                cases hx : wsThenMarker (rest ++ '\n' :: t) with
                | false => rfl
                | true =>
                  rw [hsp, hx] at hw3
                  exact absurd rfl hw3
              have hnotall : ¬ ∀ d ∈ rest, reSpace d = true := by
                intro hall
                unfold wsThenMarker at hwmrest
                rw [dropWhile_append_all rest ('\n' :: t) hall,
                  List.dropWhile_cons, if_pos (by decide)] at hwmrest
                rw [show markerL.isPrefixOf (t.dropWhile reSpace) = wsThenMarker t
                    from rfl, hws] at hwmrest
                exact absurd hwmrest (by simp)
              intro hnil
              exact hnotall (by rw [← hqrest]; exact rstrip_eq_nil reSpace q hnil)
            · right
              cases hx : reSpace c with
              | false => rfl
              | true => exact absurd hx hsp
          rw [show modLast [c :: q] = [rstrip reSpace (c :: q)] from rfl, hrc,
            show modLast [q] = [rstrip reSpace q] from rfl]
          rfl
        | cons q₂ qs₂ =>
          rw [modLast_cons, modLast_cons, List.cons_append, List.cons_append]

theorem map_piece_modLast :
    ∀ ps : List Str, ps ≠ [] →
      (modLast ps).map (fun q => (pieceName q, pieceBody q)) =
        ps.map (fun q => (pieceName q, pieceBody q)) := by
  intro ps
  induction ps with
  | nil =>
    intro h
    exact absurd rfl h
  | cons p ps' ih =>
    intro _
    cases ps' with
    | nil =>
      rw [show modLast [p] = [rstrip reSpace p] from rfl]
      simp only [List.map_cons, List.map_nil, pieceName_rstrip, pieceBody_rstrip]
    | cons q qs =>
      rw [modLast_cons, List.map_cons, List.map_cons, ih (by simp)]

/-- The name/body pairs of a concatenation of two texts, the second of
which starts with whitespace and the marker, are the pairs of the two
texts in order. -/
theorem segPairs_cat (a t : Str) (hws : wsThenMarker t = true) :
    segPairs (a ++ '\n' :: t) = segPairs a ++ segPairs t := by
  unfold segPairs
  rw [splitMarker_append_marker t hws a]
  cases hsa : splitMarker a with
  | nil => exact absurd hsa (splitMarker_ne_nil a)
  | cons p ps =>
    cases ps with
    | nil =>
      rw [show modLast [p] = [rstrip reSpace p] from rfl, List.singleton_append,
        List.tail_cons, List.tail_cons, List.map_nil, List.nil_append]
    | cons q qs =>
      rw [modLast_cons, List.cons_append, List.tail_cons, List.tail_cons,
        List.map_append, map_piece_modLast (q :: qs) (by simp)]

/-- The name/body pairs of the newline-joined concatenation of a list of
texts, each text after the first starting with whitespace and the marker,
are the pairs of the individual texts in order. -/
theorem segPairs_goCat :
    ∀ ts : List Str, ts ≠ [] → (∀ u ∈ ts.tail, wsThenMarker u = true) →
      segPairs (goCat ts) = (ts.map segPairs).join := by
  intro ts
  induction ts with
  | nil =>
    intro h _
    exact absurd rfl h
  | cons a rest ih =>
    intro _ hmark
    cases rest with
    | nil =>
      rw [show goCat [a] = a from intercalate_lf_singleton a]
      simp
    | cons b rest' =>
      have hmark' : ∀ u ∈ b :: rest', wsThenMarker u = true := by
        intro u hu
        exact hmark u hu
      have hcat : goCat (a :: b :: rest') = a ++ '\n' :: goCat (b :: rest') :=
        intercalate_lf_cons₂ a b rest'
      have hwsb : wsThenMarker (goCat (b :: rest')) = true := by
        cases rest' with
        | nil =>
          rw [show goCat [b] = b from intercalate_lf_singleton b]
          exact hmark' b (List.mem_cons_self _ _)
        | cons c rest'' =>
          rw [show goCat (b :: c :: rest'') = b ++ '\n' :: goCat (c :: rest'')
            from intercalate_lf_cons₂ b c rest'']
          exact wsThenMarker_append _ (hmark' b (List.mem_cons_self _ _))
      rw [hcat, segPairs_cat a (goCat (b :: rest')) hwsb,
        ih (by simp) (fun u hu => hmark' u (List.mem_cons_of_mem _ hu))]
      rfl

theorem segNames_eq (s : Str) : segNames s = (segPairs s).map Prod.fst := by
  rw [segNames, segPairs, List.map_map]
  rfl

theorem mapLookup_not_mem {β : Type} :
    ∀ (m : List (Str × β)) (k : Str), k ∉ mapKeys m → mapLookup m k = none := by
  intro m
  induction m with
  | nil => intro k _; rfl
  | cons kv rest ih =>
    intro k hk
    obtain ⟨k₁, v₁⟩ := kv
    rw [show mapKeys ((k₁, v₁) :: rest) = k₁ :: mapKeys rest from rfl] at hk
    have hne : k ≠ k₁ := by
      intro hx
      exact hk (by rw [hx]; exact List.mem_cons_self _ _)
    rw [mapLookup_cons, if_neg hne]
    exact ih k (fun hx => hk (List.mem_cons_of_mem _ hx))

/-- Looking a key up in the reversed entry list of a map with distinct
keys finds the same value as in the map itself. -/
theorem mapLookup_reverse_of_nodup {β : Type} :
    ∀ (m : List (Str × β)), (mapKeys m).Nodup →
      ∀ k, mapLookup m.reverse k = mapLookup m k := by
  intro m
  induction m with
  | nil => intro _ k; rfl
  | cons kv rest ih =>
    intro hnd k
    obtain ⟨k₁, v₁⟩ := kv
    rw [show mapKeys ((k₁, v₁) :: rest) = k₁ :: mapKeys rest from rfl] at hnd
    have hnotmem : k₁ ∉ mapKeys rest := (List.nodup_cons.mp hnd).1
    have hnd' : (mapKeys rest).Nodup := (List.nodup_cons.mp hnd).2
    rw [List.reverse_cons, mapLookup_append, ih hnd' k]
    by_cases hx : k = k₁
    · rw [hx, mapLookup_not_mem rest k₁ hnotmem,
        show mapLookup [(k₁, v₁)] k₁ = some v₁ from by rw [mapLookup_cons, if_pos rfl],
        show mapLookup ((k₁, v₁) :: rest) k₁ = some v₁ from by
          rw [mapLookup_cons, if_pos rfl]]
      rfl
    · rw [show mapLookup [(k₁, v₁)] k = none from by
          rw [mapLookup_cons, if_neg hx]; rfl,
        optOr_none_right, mapLookup_cons, if_neg hx]

theorem mapUnion_lookup_congr {β : Type} (m₁ m₂ L : List (Str × β))
    (h : ∀ k, mapLookup m₁ k = mapLookup m₂ k) :
    ∀ k, mapLookup (mapUnion m₁ L) k = mapLookup (mapUnion m₂ L) k := by
  intro k
  rw [mapLookup_mapUnion, mapLookup_mapUnion, h k]

/-- Merging a pre-deduplicated map is, for lookups, the same as merging
the raw entry list it came from. -/
theorem mapLookup_mapUnion_union_nil {β : Type} (m P : List (Str × β)) (k : Str) :
    mapLookup (mapUnion m (mapUnion [] P)) k = mapLookup (mapUnion m P) k := by
  rw [mapLookup_mapUnion, mapLookup_mapUnion,
    mapLookup_reverse_of_nodup (mapUnion [] P) (mapKeys_nodup_mapUnion [] P List.nodup_nil) k,
    mapLookup_mapUnion, mapLookup_nil, optOr_none_right]

theorem foldl_mapUnion_congr {β : Type} :
    ∀ (L : List (List (Str × β))) (m₁ m₂ : List (Str × β)),
      (∀ k, mapLookup m₁ k = mapLookup m₂ k) →
      ∀ k, mapLookup (List.foldl mapUnion m₁ L) k =
        mapLookup (List.foldl mapUnion m₂ L) k := by
  intro L
  induction L with
  | nil => intro m₁ m₂ h k; exact h k
  | cons M rest ih =>
    intro m₁ m₂ h k
    rw [List.foldl_cons, List.foldl_cons]
    exact ih (mapUnion m₁ M) (mapUnion m₂ M) (mapUnion_lookup_congr m₁ m₂ M h) k

theorem mapUnion_append {β : Type} (m A B : List (Str × β)) :
    mapUnion m (A ++ B) = mapUnion (mapUnion m A) B := by
  unfold mapUnion
  exact List.foldl_append _ _ _ _

/-- Inserting all pairs of a list of texts at once is, for lookups, the
same as building the per-text maps and merging them in order. -/
theorem union_join_foldl :
    ∀ (ts : List Str) (m : QMap) (k : Str),
      mapLookup (mapUnion m (ts.map segPairs).join) k =
        mapLookup (List.foldl mapUnion m
          (ts.map fun t => mapUnion [] (segPairs t))) k := by
  intro ts
  induction ts with
  | nil => intro m k; rfl
  | cons t rest ih =>
    intro m k
    rw [List.map_cons,
      show (segPairs t :: List.map segPairs rest).join =
        segPairs t ++ (List.map segPairs rest).join from rfl,
      mapUnion_append, ih (mapUnion m (segPairs t)) k, List.map_cons, List.foldl_cons]
    exact foldl_mapUnion_congr (List.map (fun u => mapUnion [] (segPairs u)) rest)
      (mapUnion m (segPairs t)) (mapUnion m (mapUnion [] (segPairs t)))
      (fun x => (mapLookup_mapUnion_union_nil m (segPairs t) x).symm) k

/-- When every declared name of a text is valid, segmentation returns
exactly the insertion of all its name/body pairs, in order, into an
empty map (also when the text yields no pieces at all). -/
theorem extractQueryMap_union (x : Str)
    (h : ∀ n ∈ segNames x, validQueryName n = true) :
    extractQueryMap x = .ok (mapUnion [] (segPairs x)) := by
  rw [extractQueryMap]
  cases hsm : splitMarker x with
  | nil => exact absurd hsm (splitMarker_ne_nil x)
  | cons a t =>
    have hpairs : segPairs x = t.map (fun q => (pieceName q, pieceBody q)) := by
      rw [segPairs, hsm, List.tail_cons]
    by_cases hlen : (a :: t).length ≤ 1
    · have ht : t = [] := by
        rcases t with _ | ⟨b, t'⟩
        · rfl
        · simp at hlen
      rw [if_pos hlen, hpairs, ht]
      rfl
    · rw [if_neg hlen, List.tail_cons, hpairs]
      apply extractLoop_all_valid
      intro q hq
      apply h
      rw [segNames, hsm, List.tail_cons]
      exact List.mem_map_of_mem _ hq

theorem forall₂_map_self {α β : Type} (P : α → β → Prop) (g : α → β) :
    ∀ l : List α, (∀ x ∈ l, P x (g x)) → List.Forall₂ P l (l.map g) := by
  intro l
  induction l with
  | nil => intro _; exact List.Forall₂.nil
  | cons x xs ih =>
    intro h
    exact List.Forall₂.cons (h x (List.mem_cons_self _ _))
      (ih (fun y hy => h y (List.mem_cons_of_mem _ hy)))

/-- C7 counterexample: two texts with valid, disjoint declared names
(\x22a\x22 in the first, \x22b\x22 in the second) for which concatenating and
segmenting once differs from segmenting separately and merging: the
second text does not begin with the marker, so its leading junk line is
glued into the body of the last query of the first text. -/
theorem extractQueryMap_cat_counterexample :
    (∀ t ∈ ["-- query: a\nX".toList, "junk\n-- query: b\nY".toList],
        ∀ n ∈ segNames t, validQueryName n = true) ∧
    (∀ n, n ∈ segNames ("-- query: a\nX".toList) →
        n ∈ segNames ("junk\n-- query: b\nY".toList) → False) ∧
    extractQueryMap ("-- query: a\nX".toList) = .ok [("a".toList, "X".toList)] ∧
    extractQueryMap ("junk\n-- query: b\nY".toList) = .ok [("b".toList, "Y".toList)] ∧
    extractQueryMap
        (goCat ["-- query: a\nX".toList, "junk\n-- query: b\nY".toList]) =
      .ok [("a".toList, "X\njunk".toList), ("b".toList, "Y".toList)] ∧
    mapLookup (mapUnion [("a".toList, "X".toList)] [("b".toList, "Y".toList)])
        ("a".toList) ≠
      mapLookup [("a".toList, "X\njunk".toList), ("b".toList, "Y".toList)]
        ("a".toList) := by
  refine ⟨by decide, by decide, by decide, by decide, by decide, by decide⟩

/-- C7 (amended): when every text after the first begins with the query
marker after only regex whitespace and every declared name is valid,
segmenting the newline-joined concatenation succeeds, segmenting each
text separately succeeds, and the concatenated mapping agrees on every
key with the in-order merge of the per-text mappings (so in particular
for non-conflicting names the two strategies coincide). -/
theorem extractQueryMap_cat (ts : List Str)
    (hne : ts ≠ [])
    (hmark : ∀ t ∈ ts.tail, wsThenMarker t = true)
    (hval : ∀ t ∈ ts, ∀ n ∈ segNames t, validQueryName n = true) :
    ∃ (M : QMap) (ms : List QMap),
      extractQueryMap (goCat ts) = .ok M ∧
      List.Forall₂ (fun t m => extractQueryMap t = .ok m) ts ms ∧
      ∀ k, mapLookup M k = mapLookup (ms.foldl mapUnion []) k := by
  refine ⟨mapUnion [] (segPairs (goCat ts)),
    ts.map (fun t => mapUnion [] (segPairs t)), ?_, ?_, ?_⟩
  · apply extractQueryMap_union
    intro n hn
    rw [segNames_eq, segPairs_goCat ts hne hmark] at hn
    obtain ⟨p, hp, hfst⟩ := List.mem_map.mp hn
    obtain ⟨L, hL, hpL⟩ := List.mem_join.mp hp
    obtain ⟨t, ht, rfl⟩ := List.mem_map.mp hL
    apply hval t ht
    rw [segNames_eq, ← hfst]
    exact List.mem_map_of_mem _ hpL
  · apply forall₂_map_self
    intro t ht
    exact extractQueryMap_union t (hval t ht)
  · intro k
    rw [segPairs_goCat ts hne hmark]
    exact union_join_foldl ts [] k

/-- C7 witness: two well-formed texts declaring the names a and b; the
theorem applies and both strategies agree. -/
theorem extractQueryMap_cat_witness :
    ((["-- query: a\nX".toList, "-- query: b\nY".toList] : List Str) ≠ [] ∧
     (∀ t ∈ (["-- query: a\nX".toList, "-- query: b\nY".toList] : List Str).tail,
        wsThenMarker t = true) ∧
     (∀ t ∈ (["-- query: a\nX".toList, "-- query: b\nY".toList] : List Str),
        ∀ n ∈ segNames t, validQueryName n = true)) ∧
    (∃ (M : QMap) (ms : List QMap),
      extractQueryMap (goCat ["-- query: a\nX".toList, "-- query: b\nY".toList]) =
        .ok M ∧
      List.Forall₂ (fun t m => extractQueryMap t = .ok m)
        ["-- query: a\nX".toList, "-- query: b\nY".toList] ms ∧
      ∀ k, mapLookup M k = mapLookup (ms.foldl mapUnion []) k) :=
  ⟨⟨by decide, by decide, by decide⟩,
    extractQueryMap_cat ["-- query: a\nX".toList, "-- query: b\nY".toList]
      (by decide) (by decide) (by decide)⟩

end Sqload
